import Mathlib

/-!
# dhall-to-ds: record decomposition, path resolution and output writing

A shallow embedding of `main.go`.  Go maps are association lists given in the
order in which the `range` statement of that run visits them, so a statement
quantified over all lists is a statement about every iteration order.  The
operating system, the evaluator subprocess and the YAML codec are the fields of
`Env`; the calls issued and the files on disk are the `World`.
-/

namespace DhallToDs

/-! ## Values decoded from the evaluator output -/

/-- An `interface{}` produced by the YAML decoder.  Only `mapping` is a
`map[string]interface{}`; every other constructor fails the type assertion of
the main loop. -/
inductive Value where
  | scalar (repr : String)
  | seq (items : List Value)
  | mapping (entries : List (String × Value))
  | anyMap (entries : List (Value × Value))

/-- The type assertion `v.(map[string]interface{})`. -/
def Value.asMap : Value → Option (List (String × Value))
  | .mapping entries => some entries
  | _ => none

/-- A decoded record: `map[string]interface{}` in iteration order. -/
abbrev Record := List (String × Value)

/-! ## `path/filepath` on a slash-separated platform -/

/-- Elements of a path between separators. -/
def elems (path : List Char) : List (List Char) := path.splitOn '/'

/-- One element processed by `filepath.Clean`, on the stack of elements kept so
far (last one first): empty and `.` elements are dropped, `..` removes the
last real element, is kept at the front of a relative path and is dropped at
the root, any other element is kept. -/
def cleanStep (rooted : Bool) (st : List (List Char)) (e : List Char) : List (List Char) :=
  if e = [] ∨ e = ['.'] then st
  else if e = ['.', '.'] then
    match st with
    | [] => if rooted then [] else [e]
    | top :: below => if top = ['.', '.'] then e :: st else below
  else e :: st

/-- The kept elements written back as a path. -/
def render (rooted : Bool) (st : List (List Char)) : List Char :=
  if rooted then '/' :: ['/'].intercalate st.reverse
  else if st = [] then ['.'] else ['/'].intercalate st.reverse

/-- The test `os.IsPathSeparator(path[0])` on a non-empty path. -/
def isRooted (path : List Char) : Bool := path.head? = some '/'

/-- The function `filepath.Clean` on the characters of a path. -/
def cleanChars (path : List Char) : List Char :=
  if path = [] then ['.']
  else render (isRooted path) ((elems path).foldl (cleanStep (isRooted path)) [])

/-- The function `filepath.Clean`. -/
def Clean (path : String) : String := ⟨cleanChars path.data⟩

/-- The call `strings.Join(elem, "/")` on characters. -/
def joinSlash (elem : List String) : List Char := ['/'].intercalate (elem.map String.data)

/-- The function `filepath.Join`: leading empty elements are skipped, the rest
is joined with the separator and cleaned; the result is empty when every
element is empty. -/
def Join (elem : List String) : String :=
  match elem.dropWhile (fun e => e = "") with
  | [] => ""
  | e :: es => Clean ⟨joinSlash (e :: es)⟩

/-- The part of a path up to and including its last separator. -/
def dirPrefix : List Char → List Char
  | [] => []
  | c :: cs =>
    if '/' ∈ c :: cs then c :: dirPrefix cs else []

/-- The function `filepath.Dir`. -/
def Dir (path : String) : String := Clean ⟨dirPrefix path.data⟩

/-- The call `fmt.Sprintf("%s.%s.yaml", name, kind)`. -/
def Sprintf (name kind : String) : String := name ++ "." ++ kind ++ ".yaml"

/-! ## Files and `bufio.Writer` -/

/-- Bytes written to a file. -/
abbrev Bytes := List Nat

/-- What the operating system does for one `os.Create` call and the file it
returns: the error of the call, and the number of bytes the file accepts
before `Write` fails (a full device, a quota), if there is such a limit. -/
structure FileIO where
  createErr : Option String
  capacity : Option Nat

/-- An open `os.File`. -/
structure File where
  data : Bytes
  capacity : Option Nat

/-- The method `(*os.File).Write`: all of `p` is written when it fits,
otherwise the part that fits is written and an error is returned. -/
def File.Write (f : File) (p : Bytes) : File × Nat × Option String :=
  match f.capacity with
  | none => ({ f with data := f.data ++ p }, p.length, none)
  | some cap =>
    if f.data.length + p.length ≤ cap then
      ({ f with data := f.data ++ p }, p.length, none)
    else
      let n := cap - f.data.length
      ({ f with data := f.data ++ p.take n }, n, some "no space left on device")

/-- The size of the buffer of `bufio.NewWriter`. -/
def defaultBufSize : Nat := 4096

/-- A `bufio.Writer`: the buffered bytes `buf[0:n]`, the sticky error and the
underlying file. -/
structure Writer where
  buf : Bytes
  err : Option String
  wr : File

/-- The function `bufio.NewWriter`. -/
def NewWriter (f : File) : Writer := { buf := [], err := none, wr := f }

/-- The method `(*bufio.Writer).Available`. -/
def Writer.Available (b : Writer) : Nat := defaultBufSize - b.buf.length

/-- The method `(*bufio.Writer).Flush`. -/
def Writer.Flush (b : Writer) : Writer × Option String :=
  match b.err with
  | some e => (b, some e)
  | none =>
    if b.buf.length = 0 then (b, none)
    else
      match b.wr.Write b.buf with
      | (f, n, err) =>
        let err1 := if n < b.buf.length ∧ err = none then some "short write" else err
        match err1 with
        | some e => ({ buf := b.buf.drop n, err := some e, wr := f }, some e)
        | none => ({ buf := [], err := none, wr := f }, none)

/-- The loop of `(*bufio.Writer).Write`, `for len(p) > b.Available() && b.err == nil`,
run for at most `fuel` iterations. -/
def Writer.writeLoop : Nat → Writer → Bytes → Writer × Bytes
  | 0, b, p => (b, p)
  | fuel + 1, b, p =>
    if b.Available < p.length ∧ b.err = none then
      if b.buf.length = 0 then
        match b.wr.Write p with
        | (f, n, err) => Writer.writeLoop fuel { b with err := err, wr := f } (p.drop n)
      else
        let n := min b.Available p.length
        let b1 := ({ b with buf := b.buf ++ p.take n } : Writer).Flush.1
        Writer.writeLoop fuel b1 (p.drop n)
    else (b, p)

/-- The method `(*bufio.Writer).Write`.  The loop runs at most twice: a pass
that fills and flushes the buffer leaves it empty or in error, and a pass on an
empty buffer writes the rest to the file directly. -/
def Writer.Write (b : Writer) (p : Bytes) : Writer × Option String :=
  match b.writeLoop 2 p with
  | (b1, p1) =>
    match b1.err with
    | some e => (b1, some e)
    | none => ({ b1 with buf := b1.buf ++ p1 }, none)

/-! ## The environment -/

/-- Everything outside the program: `strings.ToLower`, `os.MkdirAll` (by the
number of earlier calls and the path), the file system at each `os.Create` (by
the number of earlier `writeYaml` calls and the path), the YAML encoder (the
chunks it hands to its writer and the error it ends with), the evaluator
subprocess and the YAML decoder. -/
structure Env where
  ToLower : String → String
  MkdirAll : Nat → String → Option String
  fileIO : Nat → String → FileIO
  marshal : Value → List Bytes × Option String
  dhallToYaml : String → Except String Bytes
  decode : Bytes → Except String Record

/-- What the run did to the outside. -/
inductive Event where
  | usage
  | printVersion
  | mkdirAll (path : String) (err : Option String)
  | dhallToYaml (file : String)
  | writeYaml (filename : String) (contents : Value) (err : Option String)

/-- The calls issued so far, oldest first, and the files on disk with their
bytes. -/
structure World where
  trace : List Event
  files : List (String × Bytes)

/-- How the process ends. -/
inductive Exit where
  | done
  | usage (code : Nat)
  | version
  | fatal (message : String) (ctx : List (String × String))

/-- The exit code of the process. -/
def Exit.code : Exit → Nat
  | .done => 0
  | .usage code => code
  | .version => 0
  | .fatal _ _ => 1

/-- The function `logFatal`: the message is logged and the process exits 1. -/
def logFatal (message : String) (ctx : List (String × String)) : Exit := .fatal message ctx

/-- The `writeYaml` calls of a trace: file name, contents and returned error. -/
def writesOf (tr : List Event) : List (String × Value × Option String) :=
  tr.filterMap fun ev =>
    match ev with
    | .writeYaml f c e => some (f, c, e)
    | _ => none

/-- The `os.MkdirAll` calls of a trace: path and returned error. -/
def mkdirsOf (tr : List Event) : List (String × Option String) :=
  tr.filterMap fun ev =>
    match ev with
    | .mkdirAll p e => some (p, e)
    | _ => none

/-- The world after one more event. -/
def World.record (w : World) (e : Event) : World := { w with trace := w.trace ++ [e] }

/-- The files after a `writeYaml` call on `filename`: unchanged when the file
was not created, otherwise the file holds the bytes that reached it. -/
def storeFile (files : List (String × Bytes)) (filename : String) :
    Option Bytes → List (String × Bytes)
  | none => files
  | some d => files.filter (fun f => f.1 ≠ filename) ++ [(filename, d)]

/-- The world after a `writeYaml` call on `filename`. -/
def World.store (w : World) (filename : String) (file : Option Bytes) : World :=
  { w with files := storeFile w.files filename file }

/-- The world at process start: nothing done yet, `files` on disk. -/
def World.init (files : List (String × Bytes)) : World := { trace := [], files := files }

/-! ## The program -/

/-- The writes of `yaml_emitter_flush` during `Encode`: a failed write ends the
encoding with that error. -/
def writeChunks : Writer → List Bytes → Writer × Option String
  | bw, [] => (bw, none)
  | bw, c :: cs =>
    match bw.Write c with
    | (bw1, some e) => (bw1, some e)
    | (bw1, none) => writeChunks bw1 cs

/-- The method `(*yaml.Encoder).Encode` on a writer. -/
def Encode (env : Env) (bw : Writer) (contents : Value) : Writer × Option String :=
  match writeChunks bw (env.marshal contents).1 with
  | (bw1, some e) => (bw1, some e)
  | (bw1, none) => (bw1, (env.marshal contents).2)

/-- The function `writeYaml` at its `call`-th invocation: the returned error
and the bytes of the file when it was created.  The result of the deferred
`bw.Flush()` is dropped. -/
def writeYaml (env : Env) (call : Nat) (filename : String) (contents : Value) :
    Option String × Option Bytes :=
  match (env.fileIO call filename).createErr with
  | some e => (some e, none)
  | none =>
    let f : File := { data := [], capacity := (env.fileIO call filename).capacity }
    let bw := NewWriter f
    match Encode env bw contents with
    | (bw1, err) => (err, some bw1.Flush.1.wr.data)

/-- The function `readRecord`. -/
def readRecord (env : Env) (file : String) : Except String Record :=
  match env.dhallToYaml file with
  | .error e => .error e
  | .ok buf =>
    match env.decode buf with
    | .error e => .error e
    | .ok rec => .ok rec

/-- The path of a resource file: line 169 of `main.go`. -/
def filename (env : Env) (outputDir comp kind name : String) : String :=
  Join [outputDir, env.ToLower comp, Sprintf name kind]

/-- The loop `for name, contents := range kindRecM`. -/
def namesLoop (env : Env) (outputDir comp kind : String) :
    List (String × Value) → World → Option Exit × World
  | [], w => (none, w)
  | (name, contents) :: rest, w =>
    let fn := filename env outputDir comp kind name
    match writeYaml env (writesOf w.trace).length fn contents with
    | (err, file) =>
      let w1 := (w.record (.writeYaml fn contents err)).store fn file
      match err with
      | some e => (some (logFatal "failed to write yaml" [("file", fn), ("error", e)]), w1)
      | none => namesLoop env outputDir comp kind rest w1

/-- The loop `for kind, kindRec := range compRecM`. -/
def kindsLoop (env : Env) (outputDir comp : String) :
    List (String × Value) → World → Option Exit × World
  | [], w => (none, w)
  | (kind, kindRec) :: rest, w =>
    match kindRec.asMap with
    | none => (some (logFatal "unexpected kind member" [("component", comp), ("kind", kind)]), w)
    | some kindRecM =>
      match namesLoop env outputDir comp kind kindRecM w with
      | (some x, w1) => (some x, w1)
      | (none, w1) => kindsLoop env outputDir comp rest w1

/-- The loop `for comp, compRec := range rec`. -/
def compsLoop (env : Env) (outputDir : String) : Record → World → Option Exit × World
  | [], w => (none, w)
  | (comp, compRec) :: rest, w =>
    match compRec.asMap with
    | none => (some (logFatal "unexpected component member" [("component", comp)]), w)
    | some compRecM =>
      let dir := Join [outputDir, env.ToLower comp]
      let err := env.MkdirAll (mkdirsOf w.trace).length dir
      let w1 := w.record (.mkdirAll dir err)
      match err with
      | some e =>
        (some (logFatal "failed to create component output directory"
          [("component", comp), ("error", e)]), w1)
      | none =>
        match kindsLoop env outputDir comp compRecM w1 with
        | (some x, w2) => (some x, w2)
        | (none, w2) => compsLoop env outputDir rest w2

/-- The parsed command-line flags. -/
structure Flags where
  recordFile : String
  outputDir : String
  printHelp : Bool
  printVersion : Bool

/-- The function `main` after `flag.Parse()`. -/
def main (env : Env) (fl : Flags) (w : World) : Exit × World :=
  if fl.printHelp then (.usage 0, w.record .usage)
  else if fl.printVersion then (.version, w.record .printVersion)
  else if fl.recordFile = "" then (.usage 1, w.record .usage)
  else if fl.outputDir = "" then (.usage 1, w.record .usage)
  else
    let err := env.MkdirAll (mkdirsOf w.trace).length fl.outputDir
    let w1 := w.record (.mkdirAll fl.outputDir err)
    match err with
    | some e => (logFatal "failed to establish output dir" [("output", fl.outputDir), ("error", e)], w1)
    | none =>
      let w2 := w1.record (.dhallToYaml fl.recordFile)
      match readRecord env fl.recordFile with
      | .error e => (logFatal "failed to read record" [("record", fl.recordFile), ("error", e)], w2)
      | .ok rec =>
        match compsLoop env fl.outputDir rec w2 with
        | (some x, w3) => (x, w3)
        | (none, w3) => (.done, w3)

/-! ## Resource tuples -/

/-- A resource tuple `(component, kind, name, contents)`. -/
structure Leaf where
  comp : String
  kind : String
  name : String
  contents : Value

/-- The tuples of one kind record, in iteration order. -/
def leavesOfKind (comp kind : String) (kindRecM : List (String × Value)) : List Leaf :=
  kindRecM.map fun nc => { comp := comp, kind := kind, name := nc.1, contents := nc.2 }

/-- The tuples of one component record, in iteration order. -/
def leavesOfComp (comp : String) (compRecM : List (String × Value)) : List Leaf :=
  compRecM.flatMap fun kv =>
    match kv.2.asMap with
    | some kindRecM => leavesOfKind comp kv.1 kindRecM
    | none => []

/-- The tuples of a record, in iteration order. -/
def leaves (rec : Record) : List Leaf :=
  rec.flatMap fun cv =>
    match cv.2.asMap with
    | some compRecM => leavesOfComp cv.1 compRecM
    | none => []

/-- Every kind value of a component record is a mapping. -/
def kindsValid (compRecM : List (String × Value)) : Bool :=
  compRecM.all fun kv => kv.2.asMap.isSome

/-- Every component value and every kind value of a record is a mapping. -/
def fullyValid (rec : Record) : Bool :=
  rec.all fun cv =>
    match cv.2.asMap with
    | some compRecM => kindsValid compRecM
    | none => false

/-- The resolved path of a tuple under an output root. -/
def Leaf.path (env : Env) (outputDir : String) (t : Leaf) : String :=
  filename env outputDir t.comp t.kind t.name

/-- The `writeYaml` calls and the files: what the writing of tuples reads and
changes of a world. -/
abbrev Obs := List (String × Value × Option String) × List (String × Bytes)

/-- The observation of a world. -/
def World.obs (w : World) : Obs := (writesOf w.trace, w.files)

/-- Writing a list of tuples one after the other, stopping at the first
`writeYaml` error: the three nested loops on a valid record without the
directory creations. -/
def writeLeaves (env : Env) (outputDir : String) : List Leaf → Obs → Option Exit × Obs
  | [], s => (none, s)
  | t :: ts, s =>
    let fn := t.path env outputDir
    match writeYaml env s.1.length fn t.contents with
    | (err, file) =>
      let s1 : Obs := (s.1 ++ [(fn, t.contents, err)], storeFile s.2 fn file)
      match err with
      | some e => (some (logFatal "failed to write yaml" [("file", fn), ("error", e)]), s1)
      | none => writeLeaves env outputDir ts s1

/-- Every `writeYaml` call of a trace writes a tuple for which `P` holds to its
resolved path with its contents as payload, and comes after a successful
`os.MkdirAll` of the directory of its component. -/
def DirsFirst (env : Env) (R : String) (P : Leaf → Prop) (tr : List Event) : Prop :=
  ∀ pre post fn c e, tr = pre ++ Event.writeYaml fn c e :: post →
    ∃ t, P t ∧ fn = t.path env R ∧ c = t.contents ∧
      Event.mkdirAll (Join [R, env.ToLower t.comp]) none ∈ pre

/-- The exit and the observation of the world of a loop result. -/
def proj (r : Option Exit × World) : Option Exit × Obs := (r.1, r.2.obs)

/-- The run got past the flag checks, created the output root and read the
record `rec`. -/
def Started (env : Env) (fl : Flags) (w : World) (rec : Record) : Prop :=
  fl.printHelp = false ∧ fl.printVersion = false ∧ fl.recordFile ≠ "" ∧ fl.outputDir ≠ "" ∧
    env.MkdirAll (mkdirsOf w.trace).length fl.outputDir = none ∧
    readRecord env fl.recordFile = .ok rec

/-- The world in which the main loop starts. -/
def World.started (w : World) (fl : Flags) : World :=
  (w.record (.mkdirAll fl.outputDir none)).record (.dhallToYaml fl.recordFile)

/-- The stacks that `filepath.Clean` builds (last element first): every element
is non-empty, is not `.` and has no separator, and `..` only stands at the
front of a relative path. -/
def Kept (rooted : Bool) : List (List Char) → Prop
  | [] => True
  | e :: below =>
    e ≠ [] ∧ e ≠ ['.'] ∧ '/' ∉ e ∧
      (e = ['.', '.'] → rooted = false ∧ ∀ x ∈ below, x = ['.', '.']) ∧ Kept rooted below

/-- A path element that `filepath.Clean` keeps as it is: not empty, not `.`,
not `..`, without separator. -/
def Plain (e : String) : Prop :=
  e ≠ "" ∧ e ≠ "." ∧ e ≠ ".." ∧ '/' ∉ e.data

/-! ## Sample inputs -/

/-- The function `strings.ToLower` on ASCII letters. -/
def asciiLower (s : String) : String := ⟨s.data.map Char.toLower⟩

/-- The bytes of a text of the samples. -/
def textBytes (t : String) : Bytes := t.data.map Char.toNat

/-- A YAML encoder for the samples: a scalar is written as its text and a line
feed, a mapping of scalars as one `key: value` line per entry, any other value
as an empty flow mapping, always in one chunk. -/
def sampleMarshal : Value → List Bytes × Option String
  | .scalar repr => ([textBytes repr ++ [10]], none)
  | .mapping entries =>
    ([entries.flatMap fun kv =>
        textBytes kv.1 ++ [58, 32] ++
          (match kv.2 with
            | .scalar repr => textBytes repr
            | _ => [123, 125]) ++ [10]], none)
  | _ => ([[123, 125, 10]], none)

/-- An environment in which no call fails and the evaluator yields `rec`. -/
def okEnv (rec : Record) : Env where
  ToLower := asciiLower
  MkdirAll := fun _ _ => none
  fileIO := fun _ _ => { createErr := none, capacity := none }
  marshal := sampleMarshal
  dhallToYaml := fun _ => .ok []
  decode := fun _ => .ok rec

/-- The flags `--record record.dhall --output /out`. -/
def demoFlags : Flags :=
  { recordFile := "record.dhall", outputDir := "/out", printHelp := false, printVersion := false }

/-- The document `{"Api": {"service": {"frontend": {"port": 8080}}}}`. -/
def apiRecord : Record :=
  [("Api", .mapping [("service", .mapping [("frontend", .mapping [("port", .scalar "8080")])])])]

/-- The document `{"Api": "not-a-mapping"}`. -/
def apiBadRecord : Record := [("Api", .scalar "not-a-mapping")]

/-- A valid component visited before a component that is not a mapping. -/
def lateBadRecord : Record :=
  [("Api", .mapping [("service", .mapping [("frontend", .scalar "8080")])]),
   ("Db", .scalar "not-a-mapping")]

/-- A component with two kinds that are not mappings. -/
def twoBadKindsRecord : Record :=
  [("Api", .mapping [("service", .scalar "x"), ("deployment", .scalar "y")])]

/-- A component with a kind that is not a mapping, visited before a component
that is not a mapping. -/
def kindFirstRecord : Record :=
  [("Api", .mapping [("service", .scalar "not-a-mapping")]), ("Db", .scalar "not-a-mapping")]

/-- Two components that differ only by case. -/
def caseRecord : Record :=
  [("Foo", .mapping [("service", .mapping [("web", .scalar "1")])]),
   ("foo", .mapping [("service", .mapping [("web", .scalar "2")])])]

/-- Two resources of one kind. -/
def twoRecord : Record :=
  [("Api", .mapping [("service", .mapping [("frontend", .scalar "8080"),
    ("backend", .scalar "9090")])])]

/-- An environment in which the second `os.Create` is refused. -/
def secondCreateFails (rec : Record) : Env :=
  { okEnv rec with
    fileIO := fun n _ =>
      if n = 1 then { createErr := some "permission denied", capacity := none }
      else { createErr := none, capacity := none } }

/-- A serialized document of 5000 bytes, longer than the buffer of the writer. -/
def bigChunk : Bytes := List.replicate 5000 32

/-- An environment with a full device: files are created and accept no byte,
and every document serializes to `bigChunk`. -/
def diskFullBig (rec : Record) : Env :=
  { okEnv rec with
    fileIO := fun _ _ => { createErr := none, capacity := some 0 }
    marshal := fun _ => ([bigChunk], none) }

/-- An environment with a full device: files are created and accept no byte. -/
def diskFull (rec : Record) : Env :=
  { okEnv rec with fileIO := fun _ _ => { createErr := none, capacity := some 0 } }

/-! ## Paths -/

theorem elems_append_sep (x y : List Char) : elems (x ++ '/' :: y) = elems x ++ elems y := by
  induction x with
  | nil => simp [elems, List.splitOn, List.splitOnP_cons]
  | cons a x ih =>
    simp only [elems, List.splitOn] at ih
    simp only [elems, List.splitOn, List.cons_append, List.splitOnP_cons, ih]
    split
    · rfl
    · cases h : List.splitOnP (fun x => x == '/') x with
      | nil => exact absurd h (List.splitOnP_ne_nil _ _)
      | cons hd tl => simp

theorem elems_no_sep (f : List Char) (h : '/' ∉ f) : elems f = [f] := by
  apply List.splitOnP_eq_single
  intro x hx hp
  have : x = '/' := by simpa using hp
  exact h (this ▸ hx)

theorem elems_mem_no_sep (p e : List Char) (he : e ∈ elems p) : '/' ∉ e := by
  induction p generalizing e with
  | nil =>
    simp [elems, List.splitOn] at he
    simp [he]
  | cons a p ih =>
    simp only [elems, List.splitOn, List.splitOnP_cons] at he ih
    split at he
    · rcases List.mem_cons.1 he with h | h
      · simp [h]
      · exact ih e h
    · rename_i ha
      cases h : List.splitOnP (fun x => x == '/') p with
      | nil => exact absurd h (List.splitOnP_ne_nil _ _)
      | cons hd tl =>
        rw [h] at he ih
        simp only [List.modifyHead_cons] at he
        rcases List.mem_cons.1 he with h1 | h1
        · have hhd := ih hd (List.mem_cons_self _ _)
          subst h1
          intro hm
          rcases List.mem_cons.1 hm with h2 | h2
          · exact ha (by simp [← h2])
          · exact hhd h2
        · exact ih e (List.mem_cons_of_mem _ h1)

theorem Kept.of_append (r : Bool) (a b : List (List Char)) (h : Kept r (a ++ b)) : Kept r b := by
  induction a with
  | nil => simpa using h
  | cons x a ih =>
    simp only [List.cons_append, Kept] at h
    exact ih h.2.2.2.2

theorem Kept.mem_no_sep (r : Bool) (st : List (List Char)) (h : Kept r st) :
    ∀ e ∈ st, '/' ∉ e := by
  induction st with
  | nil => simp
  | cons x st ih =>
    simp only [Kept] at h
    intro e he
    rcases List.mem_cons.1 he with h1 | h1
    · exact h1 ▸ h.2.2.1
    · exact ih h.2.2.2.2 e h1

theorem cleanStep_kept (r : Bool) (st : List (List Char)) (e : List Char)
    (h : Kept r st) (he : '/' ∉ e) : Kept r (cleanStep r st e) := by
  unfold cleanStep
  split
  · exact h
  · rename_i h1
    have h1a : e ≠ [] := fun h0 => h1 (Or.inl h0)
    have h1b : e ≠ ['.'] := fun h0 => h1 (Or.inr h0)
    split
    · rename_i h2
      cases st with
      | nil =>
        cases r with
        | true => simpa using h
        | false => simp [Kept, h2]
      | cons top below =>
        simp only [Kept] at h
        simp only
        split
        · rename_i h3
          have h4 := h.2.2.2.1 h3
          refine ⟨h1a, h1b, he, fun _ => ⟨h4.1, ?_⟩, h⟩
          intro x hx
          rcases List.mem_cons.1 hx with h5 | h5
          · exact h5 ▸ h3
          · exact h4.2 x h5
        · exact h.2.2.2.2
    · rename_i h2
      exact ⟨h1a, h1b, he, fun h0 => absurd h0 h2, h⟩

theorem foldl_cleanStep_kept (r : Bool) (es st : List (List Char))
    (h : Kept r st) (hes : ∀ e ∈ es, '/' ∉ e) : Kept r (es.foldl (cleanStep r) st) := by
  induction es generalizing st with
  | nil => exact h
  | cons e es ih =>
    simp only [List.foldl_cons]
    exact ih _ (cleanStep_kept r st e h (hes e (List.mem_cons_self _ _)))
      (fun x hx => hes x (List.mem_cons_of_mem _ hx))

theorem cleanStep_of_kept (r : Bool) (st : List (List Char)) (e : List Char)
    (h : Kept r (e :: st)) : cleanStep r st e = e :: st := by
  simp only [Kept] at h
  unfold cleanStep
  rw [if_neg (by simp [h.1, h.2.1])]
  split
  · rename_i h2
    have h4 := h.2.2.2.1 h2
    cases st with
    | nil => simp [h4.1]
    | cons top below => simp [h4.2 top (List.mem_cons_self _ _)]
  · rfl

theorem foldl_cleanStep_id (r : Bool) (s t : List (List Char)) (h : Kept r (s.reverse ++ t)) :
    s.foldl (cleanStep r) t = s.reverse ++ t := by
  induction s generalizing t with
  | nil => simp
  | cons x s ih =>
    simp only [List.reverse_cons, List.append_assoc, List.singleton_append] at h
    simp only [List.foldl_cons, List.reverse_cons, List.append_assoc, List.singleton_append]
    rw [cleanStep_of_kept r t x (Kept.of_append r _ _ h)]
    exact ih _ h

theorem foldl_elems_kept (r : Bool) (p : List Char) :
    Kept r ((elems p).foldl (cleanStep r) []) :=
  foldl_cleanStep_kept r _ _ trivial (fun e he => elems_mem_no_sep p e he)

theorem intercalate_cons_cons (a b : List Char) (l : List (List Char)) :
    ['/'].intercalate (a :: b :: l) = a ++ '/' :: ['/'].intercalate (b :: l) := by
  simp [List.intercalate]

theorem intercalate_snoc (l : List (List Char)) (f : List Char) (hl : l ≠ []) :
    ['/'].intercalate (l ++ [f]) = ['/'].intercalate l ++ '/' :: f := by
  induction l with
  | nil => exact absurd rfl hl
  | cons a l ih =>
    cases l with
    | nil => simp [List.intercalate]
    | cons b l =>
      have := ih (by simp)
      rw [List.cons_append, List.cons_append, intercalate_cons_cons, intercalate_cons_cons,
        ← List.cons_append, this]
      simp

theorem dirPrefix_no_sep (f : List Char) (h : '/' ∉ f) : dirPrefix f = [] := by
  cases f with
  | nil => rfl
  | cons c cs => simp [dirPrefix, h]

theorem dirPrefix_append_sep (a f : List Char) (h : '/' ∉ f) :
    dirPrefix (a ++ '/' :: f) = a ++ ['/'] := by
  induction a with
  | nil =>
    simp only [List.nil_append, dirPrefix, List.mem_cons, true_or, if_true]
    rw [dirPrefix_no_sep f h]
  | cons c a ih =>
    simp [dirPrefix, ih]

theorem Kept.mem_ne_nil (r : Bool) (st : List (List Char)) (h : Kept r st) :
    ∀ e ∈ st, e ≠ [] := by
  induction st with
  | nil => simp
  | cons x st ih =>
    simp only [Kept] at h
    intro e he
    rcases List.mem_cons.1 he with h1 | h1
    · exact h1 ▸ h.1
    · exact ih h.2.2.2.2 e h1

theorem isRooted_append (x y : List Char) (hx : x ≠ []) : isRooted (x ++ y) = isRooted x := by
  cases x with
  | nil => exact absurd rfl hx
  | cons c x => simp [isRooted]

theorem isRooted_intercalate (l : List (List Char)) (hl : l ≠ [])
    (h1 : ∀ e ∈ l, e ≠ []) (h2 : ∀ e ∈ l, '/' ∉ e) : isRooted (['/'].intercalate l) = false := by
  cases l with
  | nil => exact absurd rfl hl
  | cons a l =>
    have ha1 := h1 a (List.mem_cons_self _ _)
    have ha2 := h2 a (List.mem_cons_self _ _)
    have key : isRooted a = false := by
      cases a with
      | nil => exact absurd rfl ha1
      | cons c a =>
        have : c ≠ '/' := fun hc => ha2 (by simp [hc])
        simp [isRooted, this]
    cases l with
    | nil => simpa [List.intercalate] using key
    | cons b l => rw [intercalate_cons_cons, isRooted_append _ _ ha1, key]

theorem elems_intercalate (l : List (List Char)) (hl : l ≠ []) (h : ∀ e ∈ l, '/' ∉ e) :
    elems (['/'].intercalate l) = l :=
  List.splitOn_intercalate l '/' h hl

theorem cleanStep_empty (r : Bool) (st : List (List Char)) : cleanStep r st [] = st := by
  simp [cleanStep]

/-- Appending a plain element to a non-empty path appends it to the cleaned
path. -/
theorem cleanChars_snoc (x f : List Char) (hx : x ≠ []) (hf1 : f ≠ []) (hf2 : f ≠ ['.'])
    (hf3 : f ≠ ['.', '.']) (hf4 : '/' ∉ f) :
    cleanChars (x ++ '/' :: f)
      = render (isRooted x) (f :: (elems x).foldl (cleanStep (isRooted x)) []) := by
  unfold cleanChars
  rw [if_neg (by simp), isRooted_append _ _ hx, elems_append_sep, elems_no_sep f hf4,
    List.foldl_append]
  simp [cleanStep, hf1, hf2, hf3]

/-- The directory of a cleaned path that ends in a plain element is the
cleaned path without it. -/
theorem cleanChars_dirPrefix_render (r : Bool) (st : List (List Char)) (f : List Char)
    (hk : Kept r st) (hf : '/' ∉ f) :
    cleanChars (dirPrefix (render r (f :: st))) = render r st := by
  have hns : ∀ e ∈ st.reverse, '/' ∉ e := fun e he =>
    Kept.mem_no_sep r st hk e (List.mem_reverse.1 he)
  have hne : ∀ e ∈ st.reverse, e ≠ [] := fun e he =>
    Kept.mem_ne_nil r st hk e (List.mem_reverse.1 he)
  have hid : st.reverse.foldl (cleanStep r) [] = st := by
    have := foldl_cleanStep_id r st.reverse [] (by simpa using hk)
    simpa using this
  by_cases hst : st = []
  · subst hst
    cases r with
    | true =>
      have h1 : render true [f] = [] ++ '/' :: f := by simp [render, List.intercalate]
      rw [h1, dirPrefix_append_sep _ _ hf]
      decide
    | false =>
      have h1 : render false [f] = f := by simp [render, List.intercalate]
      rw [h1, dirPrefix_no_sep _ hf]
      decide
  · have hrev : st.reverse ≠ [] := by simpa using hst
    cases r with
    | true =>
      have h1 : render true (f :: st) = ('/' :: ['/'].intercalate st.reverse) ++ '/' :: f := by
        simp [render, intercalate_snoc _ _ hrev]
      rw [h1, dirPrefix_append_sep _ _ hf]
      have h2 : ('/' :: ['/'].intercalate st.reverse) ++ ['/']
          = [] ++ '/' :: (['/'].intercalate st.reverse ++ '/' :: []) := by simp
      unfold cleanChars
      rw [if_neg (by simp)]
      have h3 : isRooted (('/' :: ['/'].intercalate st.reverse) ++ ['/']) = true := by
        simp [isRooted]
      rw [h3, h2, elems_append_sep, elems_append_sep, elems_intercalate _ hrev hns]
      have h4 : elems [] = [[]] := by decide
      rw [h4, List.foldl_append, List.foldl_append]
      simp only [List.foldl_cons, List.foldl_nil, cleanStep_empty, hid]
    | false =>
      have h1 : render false (f :: st) = ['/'].intercalate st.reverse ++ '/' :: f := by
        simp [render, intercalate_snoc _ _ hrev]
      rw [h1, dirPrefix_append_sep _ _ hf]
      have hI : ['/'].intercalate st.reverse ≠ [] := by
        intro h0
        have := elems_intercalate _ hrev hns
        rw [h0] at this
        have h5 : st.reverse = [[]] := by rw [← this]; decide
        exact hne [] (by simp [h5]) rfl
      unfold cleanChars
      rw [if_neg (by simp [hI]), isRooted_append _ _ hI,
        isRooted_intercalate _ hrev hne hns, elems_append_sep,
        elems_intercalate _ hrev hns]
      have h4 : elems [] = [[]] := by decide
      rw [h4, List.foldl_append]
      simp only [List.foldl_cons, List.foldl_nil, cleanStep_empty, hid]

theorem data_ne_nil (s : String) (h : s ≠ "") : s.data ≠ [] := fun h0 => h (String.ext h0)

theorem Sprintf_data (name kind : String) :
    (Sprintf name kind).data = (name.data ++ '.' :: kind.data) ++ ['.', 'y', 'a', 'm', 'l'] := by
  simp [Sprintf, String.data_append]

theorem Sprintf_plain (name kind : String) (hn : '/' ∉ name.data) (hk : '/' ∉ kind.data) :
    (Sprintf name kind).data ≠ [] ∧ (Sprintf name kind).data ≠ ['.'] ∧
      (Sprintf name kind).data ≠ ['.', '.'] ∧ '/' ∉ (Sprintf name kind).data := by
  rw [Sprintf_data]
  refine ⟨by simp, ?_, ?_, ?_⟩
  · intro h
    have := congrArg List.length h
    simp at this
    omega
  · intro h
    have := congrArg List.length h
    simp at this
    omega
  · simp [hn, hk]

theorem Join_two (R c : String) (hR : R ≠ "") :
    Join [R, c] = ⟨cleanChars (R.data ++ '/' :: c.data)⟩ := by
  simp [Join, Clean, List.dropWhile, hR, joinSlash, List.intercalate]

theorem Join_three (R c f : String) (hR : R ≠ "") :
    Join [R, c, f] = ⟨cleanChars ((R.data ++ '/' :: c.data) ++ '/' :: f.data)⟩ := by
  simp [Join, Clean, List.dropWhile, hR, joinSlash, List.intercalate]

theorem Join_three_empty (c f : String) (hc : c ≠ "") :
    Join ["", c, f] = ⟨cleanChars (c.data ++ '/' :: f.data)⟩ := by
  simp [Join, Clean, List.dropWhile, hc, joinSlash, List.intercalate]

/-- The directory of a resource file is the component directory. -/
theorem Dir_Join (R c name kind : String) (hR : R ≠ "")
    (hn : '/' ∉ name.data) (hk : '/' ∉ kind.data) :
    Dir (Join [R, c, Sprintf name kind]) = Join [R, c] := by
  obtain ⟨h1, h2, h3, h4⟩ := Sprintf_plain name kind hn hk
  have hx : R.data ++ '/' :: c.data ≠ [] := by simp
  rw [Join_three R c _ hR, Join_two R c hR]
  unfold Dir Clean
  simp only
  rw [cleanChars_snoc _ _ hx h1 h2 h3 h4,
    cleanChars_dirPrefix_render _ _ _ (foldl_elems_kept _ _) h4]
  conv_rhs => unfold cleanChars
  rw [if_neg hx]

theorem split_first (sep : Char) (a b c d : List Char) (ha : sep ∉ a) (hc : sep ∉ c)
    (h : a ++ sep :: b = c ++ sep :: d) : a = c ∧ b = d := by
  induction a generalizing c with
  | nil =>
    cases c with
    | nil => simpa using h
    | cons y c =>
      simp only [List.nil_append, List.cons_append, List.cons.injEq] at h
      exact absurd (by simp [h.1]) hc
  | cons x a ih =>
    cases c with
    | nil =>
      simp only [List.nil_append, List.cons_append, List.cons.injEq] at h
      exact absurd (by simp [h.1]) ha
    | cons y c =>
      simp only [List.cons_append, List.cons.injEq] at h
      have := ih c (fun h0 => ha (List.mem_cons_of_mem _ h0))
        (fun h0 => hc (List.mem_cons_of_mem _ h0)) h.2
      exact ⟨by rw [h.1, this.1], this.2⟩

theorem split_last (sep : Char) (a b c d : List Char) (hb : sep ∉ b) (hd : sep ∉ d)
    (h : a ++ sep :: b = c ++ sep :: d) : a = c ∧ b = d := by
  have h1 := congrArg List.reverse h
  simp only [List.reverse_append, List.reverse_cons, List.append_assoc,
    List.singleton_append] at h1
  have := split_first sep b.reverse a.reverse d.reverse c.reverse (by simpa using hb)
    (by simpa using hd) h1
  exact ⟨List.reverse_injective this.2, List.reverse_injective this.1⟩

theorem render_two (r : Bool) (st : List (List Char)) :
    ∃ pre : List Char, ∀ c f : List Char, render r (f :: c :: st) = pre ++ (c ++ '/' :: f) := by
  by_cases hst : st = []
  · subst hst
    cases r with
    | true => exact ⟨['/'], fun c f => by simp [render, List.intercalate]⟩
    | false => exact ⟨[], fun c f => by simp [render, List.intercalate]⟩
  · have hrev : st.reverse ≠ [] := by simpa using hst
    have key : ∀ c f : List Char, ['/'].intercalate (f :: c :: st).reverse
        = (['/'].intercalate st.reverse ++ ['/']) ++ (c ++ '/' :: f) := by
      intro c f
      rw [List.reverse_cons, List.reverse_cons, intercalate_snoc _ _ (by simp),
        intercalate_snoc _ _ hrev]
      simp
    cases r with
    | true =>
      exact ⟨'/' :: (['/'].intercalate st.reverse ++ ['/']), fun c f => by
        simp only [render, if_true, key]; simp⟩
    | false =>
      exact ⟨['/'].intercalate st.reverse ++ ['/'], fun c f => by
        simp only [render, key]; simp⟩

/-- Under a fixed root, the path of a plain directory element and a plain file
element is a fixed prefix followed by the two elements. -/
theorem Join_plain (R : String) :
    ∃ pre : List Char, ∀ c f : String, Plain c → f.data ≠ [] → f.data ≠ ['.'] →
      f.data ≠ ['.', '.'] → '/' ∉ f.data →
      (Join [R, c, f]).data = pre ++ (c.data ++ '/' :: f.data) := by
  by_cases hR : R = ""
  · subst hR
    refine ⟨[], fun c f hc h1 h2 h3 h4 => ?_⟩
    obtain ⟨c1, c2, c3, c4⟩ := hc
    have hcd := data_ne_nil c c1
    rw [Join_three_empty c f c1]
    simp only
    rw [cleanChars_snoc _ _ hcd h1 h2 h3 h4, elems_no_sep _ c4]
    have hroot : isRooted c.data = false := by
      have := isRooted_intercalate [c.data] (by simp) (by simpa using hcd) (by simpa using c4)
      simpa [List.intercalate] using this
    have hc2 : c.data ≠ ['.'] := fun h0 => c2 (String.ext h0)
    have hc3 : c.data ≠ ['.', '.'] := fun h0 => c3 (String.ext h0)
    simp [hroot, cleanStep, hcd, hc2, hc3, render, List.intercalate]
  · obtain ⟨pre, hpre⟩ := render_two (isRooted R.data)
      ((elems R.data).foldl (cleanStep (isRooted R.data)) [])
    refine ⟨pre, fun c f hc h1 h2 h3 h4 => ?_⟩
    obtain ⟨c1, c2, c3, c4⟩ := hc
    have hcd := data_ne_nil c c1
    have hc2 : c.data ≠ ['.'] := fun h0 => c2 (String.ext h0)
    have hc3 : c.data ≠ ['.', '.'] := fun h0 => c3 (String.ext h0)
    have hRd := data_ne_nil R hR
    rw [Join_three R c f hR]
    simp only
    rw [cleanChars_snoc _ _ (by simp) h1 h2 h3 h4, isRooted_append _ _ hRd, elems_append_sep,
      elems_no_sep _ c4, List.foldl_append]
    simp only [List.foldl_cons, List.foldl_nil]
    have : cleanStep (isRooted R.data) (List.foldl (cleanStep (isRooted R.data)) [] (elems R.data))
        c.data = c.data :: List.foldl (cleanStep (isRooted R.data)) [] (elems R.data) := by
      simp [cleanStep, hcd, hc2, hc3]
    rw [this, hpre]

/-! ## Files -/

theorem mem_storeFile (files : List (String × Bytes)) (fn : String) (d : Bytes) (p : String) :
    p ∈ (storeFile files fn (some d)).map Prod.fst ↔ p ∈ files.map Prod.fst ∨ p = fn := by
  simp only [storeFile, List.map_append, List.mem_append, List.mem_map, List.mem_filter,
    List.map_cons, List.map_nil, List.mem_singleton]
  constructor
  · rintro (⟨x, ⟨hx, _⟩, rfl⟩ | h)
    · exact Or.inl ⟨x, hx, rfl⟩
    · exact Or.inr h
  · rintro (⟨x, hx, rfl⟩ | h)
    · by_cases hfn : x.1 = fn
      · exact Or.inr hfn
      · exact Or.inl ⟨x, ⟨hx, by simpa using hfn⟩, rfl⟩
    · exact Or.inr h

theorem nodup_storeFile (files : List (String × Bytes)) (fn : String) (file : Option Bytes)
    (h : (files.map Prod.fst).Nodup) : ((storeFile files fn file).map Prod.fst).Nodup := by
  cases file with
  | none => exact h
  | some d =>
    simp only [storeFile, List.map_append, List.map_cons, List.map_nil]
    rw [List.nodup_append]
    refine ⟨?_, by simp, ?_⟩
    · exact (List.Sublist.map _ (List.filter_sublist _)).nodup h
    · intro a ha hb
      simp only [List.mem_map, List.mem_filter] at ha
      obtain ⟨x, ⟨_, hx⟩, rfl⟩ := ha
      simp only [List.mem_singleton] at hb
      simp [hb] at hx

theorem writeYaml_created (env : Env) (n : Nat) (fn : String) (c : Value)
    (h : (env.fileIO n fn).createErr = none) : ∃ d, (writeYaml env n fn c).2 = some d := by
  simp [writeYaml, h]

theorem writeYaml_not_created (env : Env) (n : Nat) (fn : String) (c : Value) (e : String)
    (h : (env.fileIO n fn).createErr = some e) : writeYaml env n fn c = (some e, none) := by
  simp [writeYaml, h]

theorem writeYaml_ok_created (env : Env) (n : Nat) (fn : String) (c : Value)
    (h : (writeYaml env n fn c).1 = none) : ∃ d, (writeYaml env n fn c).2 = some d := by
  cases hc : (env.fileIO n fn).createErr with
  | none => exact writeYaml_created env n fn c hc
  | some e => rw [writeYaml_not_created env n fn c e hc] at h; cases h

/-! ## The loop of the buffered writer -/

theorem Write_direct_exits (b : Writer) (p : Bytes) :
    ¬ (({ b with err := (b.wr.Write p).2.2, wr := (b.wr.Write p).1 } : Writer).Available
        < (p.drop (b.wr.Write p).2.1).length ∧ (b.wr.Write p).2.2 = none) := by
  unfold File.Write
  cases b.wr.capacity with
  | none => simp
  | some cap =>
    simp only
    split
    · simp
    · simp

theorem writeLoop_one_exits (b : Writer) (p : Bytes) (hb : b.buf.length = 0) :
    ¬ ((b.writeLoop 1 p).1.Available < (b.writeLoop 1 p).2.length ∧
      (b.writeLoop 1 p).1.err = none) := by
  unfold Writer.writeLoop
  split
  · simp only [Writer.writeLoop]
    exact Write_direct_exits b p
  · assumption

theorem Flush_result (b : Writer) (h : b.err = none) :
    b.Flush.1.err ≠ none ∨ b.Flush.1.buf.length = 0 := by
  unfold Writer.Flush
  rw [h]
  simp only
  split
  · right; assumption
  · cases hw : b.wr.Write b.buf with
    | mk f r =>
      obtain ⟨n, err⟩ := r
      simp only
      split
      · left; simp_all
      · right; simp_all

/-- Two passes are enough for the loop of `Write`: after them its condition is
false. -/
theorem writeLoop_exits (b : Writer) (p : Bytes) :
    ¬ ((b.writeLoop 2 p).1.Available < (b.writeLoop 2 p).2.length ∧
      (b.writeLoop 2 p).1.err = none) := by
  unfold Writer.writeLoop
  split
  · rename_i hc
    split
    · unfold Writer.writeLoop
      split
      · rename_i hc2
        exfalso
        exact Write_direct_exits b p hc2
      · assumption
    · rcases Flush_result ({ b with buf := b.buf ++ p.take (min b.Available p.length) } : Writer)
        hc.2 with h | h
      · unfold Writer.writeLoop
        rw [if_neg (fun hh => h hh.2)]
        exact fun hh => h hh.2
      · exact writeLoop_one_exits _ _ h
  · assumption

/-! ## The buffered writer on a file that accepts every byte -/

theorem Flush_unlimited (b : Writer) (h1 : b.err = none) (h2 : b.wr.capacity = none) :
    b.Flush.1.err = none ∧ b.Flush.1.wr.capacity = none ∧ b.Flush.2 = none := by
  unfold Writer.Flush
  rw [h1]
  by_cases hb : b.buf.length = 0
  · simp [hb, h1, h2]
  · simp [hb, File.Write, h2]

theorem writeLoop_unlimited (fuel : Nat) (b : Writer) (p : Bytes)
    (h1 : b.err = none) (h2 : b.wr.capacity = none) :
    (b.writeLoop fuel p).1.err = none ∧ (b.writeLoop fuel p).1.wr.capacity = none := by
  induction fuel generalizing b p with
  | zero => exact ⟨h1, h2⟩
  | succ fuel ih =>
    unfold Writer.writeLoop
    split
    · split
      · simp only [File.Write, h2]
        exact ih _ _ rfl rfl
      · have hf := Flush_unlimited
          ({ b with buf := b.buf ++ p.take (min b.Available p.length) } : Writer) h1 h2
        exact ih _ _ hf.1 hf.2.1
    · exact ⟨h1, h2⟩

theorem Write_unlimited (b : Writer) (p : Bytes) (h1 : b.err = none)
    (h2 : b.wr.capacity = none) :
    (b.Write p).1.err = none ∧ (b.Write p).1.wr.capacity = none ∧ (b.Write p).2 = none := by
  obtain ⟨l1, l2⟩ := writeLoop_unlimited 2 b p h1 h2
  unfold Writer.Write
  cases hr : b.writeLoop 2 p with
  | mk b1 p1 =>
    rw [hr] at l1 l2
    simp only at l1 l2
    simp [l1, l2]

theorem writeChunks_unlimited (b : Writer) (cs : List Bytes) (h1 : b.err = none)
    (h2 : b.wr.capacity = none) : (writeChunks b cs).2 = none := by
  induction cs generalizing b with
  | nil => rfl
  | cons c cs ih =>
    obtain ⟨l1, l2, l3⟩ := Write_unlimited b c h1 h2
    simp only [writeChunks]
    cases hr : b.Write c with
    | mk b1 o =>
      rw [hr] at l1 l2 l3
      simp only at l1 l2 l3
      subst l3
      exact ih b1 l1 l2

/-- A write on a file that can be created and accepts every byte fails only
when the encoder fails. -/
theorem writeYaml_unlimited (env : Env) (n : Nat) (fn : String) (c : Value)
    (h1 : (env.fileIO n fn).createErr = none) (h2 : (env.fileIO n fn).capacity = none)
    (h3 : (env.marshal c).2 = none) : (writeYaml env n fn c).1 = none := by
  have := writeChunks_unlimited (NewWriter { data := [], capacity := (env.fileIO n fn).capacity })
    (env.marshal c).1 rfl h2
  simp only [writeYaml, h1, Encode]
  cases hr : writeChunks (NewWriter { data := [], capacity := (env.fileIO n fn).capacity })
      (env.marshal c).1 with
  | mk b1 o =>
    rw [hr] at this
    simp only at this
    subst this
    simpa using h3

theorem okEnv_writes (rec : Record) (n : Nat) (fn : String) (c : Value) :
    (writeYaml (okEnv rec) n fn c).1 = none := by
  apply writeYaml_unlimited _ _ _ _ rfl rfl
  cases c <;> rfl

theorem Write_buffered (b : Writer) (p : Bytes) (h1 : b.err = none)
    (h2 : b.buf.length + p.length ≤ defaultBufSize) :
    b.Write p = ({ b with buf := b.buf ++ p }, none) := by
  have h3 : ¬ (b.Available < p.length ∧ b.err = none) := by
    unfold Writer.Available
    omega
  have h4 : b.writeLoop 2 p = (b, p) := by
    unfold Writer.writeLoop
    rw [if_neg h3]
  unfold Writer.Write
  rw [h4]
  simp [h1]

theorem writeChunks_buffered (b : Writer) (cs : List Bytes) (h1 : b.err = none)
    (h2 : b.buf.length + cs.flatten.length ≤ defaultBufSize) :
    (writeChunks b cs).2 = none := by
  induction cs generalizing b with
  | nil => rfl
  | cons c cs ih =>
    simp only [List.flatten_cons, List.length_append] at h2
    simp only [writeChunks, Write_buffered b c h1 (by omega)]
    exact ih _ h1 (by simp only [List.length_append]; omega)

/-- A document that fits in the buffer: once the file is created and the
encoder succeeds, `writeYaml` returns no error, whatever the file accepts. -/
theorem writeYaml_buffered (env : Env) (n : Nat) (fn : String) (c : Value)
    (h1 : (env.fileIO n fn).createErr = none) (h2 : (env.marshal c).2 = none)
    (h3 : (env.marshal c).1.flatten.length ≤ defaultBufSize) :
    (writeYaml env n fn c).1 = none := by
  have := writeChunks_buffered
    (NewWriter { data := [], capacity := (env.fileIO n fn).capacity })
    (env.marshal c).1 rfl (by simpa [NewWriter] using h3)
  simp only [writeYaml, h1, Encode]
  cases hr : writeChunks (NewWriter { data := [], capacity := (env.fileIO n fn).capacity })
      (env.marshal c).1 with
  | mk b1 o =>
    rw [hr] at this
    simp only at this
    subst this
    simpa using h2

/-- A document longer than the buffer, on a file that accepts fewer bytes than
the document has: the write fails, and the file exists with the bytes that
reached it. -/
theorem writeYaml_overflow (env : Env) (n : Nat) (fn : String) (c : Value) (p : Bytes)
    (cap : Nat) (h1 : (env.fileIO n fn).createErr = none)
    (h2 : (env.fileIO n fn).capacity = some cap) (h3 : env.marshal c = ([p], none))
    (h4 : defaultBufSize < p.length) (h5 : cap < p.length) :
    writeYaml env n fn c = (some "no space left on device", some (p.take cap)) := by
  have h6 : ¬ p.length ≤ cap := by omega
  simp [writeYaml, h1, h2, Encode, h3, writeChunks, Writer.Write, Writer.writeLoop, NewWriter,
    Writer.Available, File.Write, Writer.Flush, h4, h6]

/-! ## Writing tuples one after the other -/

theorem writeLeaves_append (env : Env) (R : String) (l1 l2 : List Leaf) (s : Obs) :
    writeLeaves env R (l1 ++ l2) s =
      match writeLeaves env R l1 s with
      | (some x, s1) => (some x, s1)
      | (none, s1) => writeLeaves env R l2 s1 := by
  induction l1 generalizing s with
  | nil => simp [writeLeaves]
  | cons t l1 ih =>
    simp only [List.cons_append, writeLeaves]
    cases h : (writeYaml env s.1.length (t.path env R) t.contents).1 with
    | some e => simp
    | none => simp [ih]

/-- When every write succeeds, every tuple is written, in order, and the files
on disk are the earlier ones and those of the tuples. -/
theorem writeLeaves_ok (env : Env) (R : String) (l : List Leaf) (s : Obs)
    (h : ∀ i u, l[i]? = some u →
      (writeYaml env (s.1.length + i) (u.path env R) u.contents).1 = none) :
    (writeLeaves env R l s).1 = none ∧
      (writeLeaves env R l s).2.1 = s.1 ++ l.map (fun u => (u.path env R, u.contents, none)) ∧
      (∀ p, p ∈ (writeLeaves env R l s).2.2.map Prod.fst ↔
        p ∈ s.2.map Prod.fst ∨ p ∈ l.map (fun u => u.path env R)) ∧
      ((s.2.map Prod.fst).Nodup → ((writeLeaves env R l s).2.2.map Prod.fst).Nodup) := by
  induction l generalizing s with
  | nil => simp [writeLeaves]
  | cons t l ih =>
    have h0 := h 0 t (by simp)
    simp only [Nat.add_zero] at h0
    obtain ⟨d, hd⟩ := writeYaml_ok_created env _ _ _ h0
    have hstep : writeLeaves env R (t :: l) s
        = writeLeaves env R l
            (s.1 ++ [(t.path env R, t.contents, none)], storeFile s.2 (t.path env R) (some d)) := by
      simp only [writeLeaves]
      rw [← hd, ← h0]
      simp only [h0]
    rw [hstep]
    have ih1 := ih (s.1 ++ [(t.path env R, t.contents, none)],
      storeFile s.2 (t.path env R) (some d)) (by
        intro i u hu
        have := h (i + 1) u (by simpa using hu)
        simpa [Nat.add_assoc, Nat.add_comm 1 i] using this)
    obtain ⟨i1, i2, i3, i4⟩ := ih1
    refine ⟨i1, ?_, ?_, ?_⟩
    · rw [i2]; simp
    · intro p
      rw [i3 p]
      simp only [mem_storeFile, List.map_cons, List.mem_cons]
      tauto
    · intro hnd
      exact i4 (nodup_storeFile s.2 (t.path env R) (some d) hnd)

/-! ## The loops on a valid record -/

theorem obs_record_write (w : World) (fn : String) (c : Value) (err : Option String)
    (file : Option Bytes) :
    ((w.record (.writeYaml fn c err)).store fn file).obs
      = (w.obs.1 ++ [(fn, c, err)], storeFile w.obs.2 fn file) := by
  simp [World.obs, World.record, World.store, writesOf, List.filterMap_append]

theorem obs_record_mkdir (w : World) (p : String) (err : Option String) :
    (w.record (.mkdirAll p err)).obs = w.obs := by
  simp [World.obs, World.record, writesOf, List.filterMap_append]

theorem mkdirs_record_write (w : World) (fn : String) (c : Value) (err : Option String)
    (file : Option Bytes) :
    mkdirsOf ((w.record (.writeYaml fn c err)).store fn file).trace = mkdirsOf w.trace := by
  simp [World.record, World.store, mkdirsOf, List.filterMap_append]

theorem mkdirs_record_mkdir (w : World) (p : String) (err : Option String) :
    mkdirsOf (w.record (.mkdirAll p err)).trace = mkdirsOf w.trace ++ [(p, err)] := by
  simp [World.record, mkdirsOf, List.filterMap_append]

theorem namesLoop_proj (env : Env) (R comp kind : String) (m : List (String × Value))
    (w : World) :
    proj (namesLoop env R comp kind m w)
      = writeLeaves env R (leavesOfKind comp kind m) w.obs := by
  induction m generalizing w with
  | nil => simp [namesLoop, leavesOfKind, writeLeaves, proj]
  | cons nc m ih =>
    obtain ⟨name, contents⟩ := nc
    simp only [namesLoop, leavesOfKind, List.map_cons, writeLeaves, Leaf.path]
    have hlen : (writesOf w.trace).length = w.obs.1.length := rfl
    rw [hlen]
    cases hres : writeYaml env w.obs.1.length (filename env R comp kind name) contents with
    | mk err file =>
      cases err with
      | some e => simp [proj, obs_record_write]
      | none =>
        simp only
        rw [ih, obs_record_write]
        rfl

theorem namesLoop_mkdirs (env : Env) (R comp kind : String) (m : List (String × Value))
    (w : World) : mkdirsOf (namesLoop env R comp kind m w).2.trace = mkdirsOf w.trace := by
  induction m generalizing w with
  | nil => simp [namesLoop]
  | cons nc m ih =>
    obtain ⟨name, contents⟩ := nc
    simp only [namesLoop]
    cases hres : writeYaml env (writesOf w.trace).length (filename env R comp kind name)
        contents with
    | mk err file =>
      cases err with
      | some e => simp [mkdirs_record_write]
      | none => simp only; rw [ih, mkdirs_record_write]

theorem kindsLoop_mkdirs (env : Env) (R comp : String) (cm : List (String × Value))
    (w : World) : mkdirsOf (kindsLoop env R comp cm w).2.trace = mkdirsOf w.trace := by
  induction cm generalizing w with
  | nil => simp [kindsLoop]
  | cons kv cm ih =>
    obtain ⟨kind, kindRec⟩ := kv
    simp only [kindsLoop]
    cases hk : kindRec.asMap with
    | none => simp
    | some km =>
      simp only
      have h1 := namesLoop_mkdirs env R comp kind km w
      cases hr : namesLoop env R comp kind km w with
      | mk o w1 =>
        rw [hr] at h1
        cases o with
        | some x => simpa using h1
        | none => simp only; rw [ih, h1]

theorem kindsLoop_proj (env : Env) (R comp : String) (cm : List (String × Value)) (w : World)
    (hv : kindsValid cm = true) :
    proj (kindsLoop env R comp cm w) = writeLeaves env R (leavesOfComp comp cm) w.obs := by
  induction cm generalizing w with
  | nil => simp [kindsLoop, leavesOfComp, writeLeaves, proj]
  | cons kv cm ih =>
    obtain ⟨kind, kindRec⟩ := kv
    simp only [kindsValid, List.all_cons, Bool.and_eq_true] at hv
    obtain ⟨hv1, hv2⟩ := hv
    cases hk : kindRec.asMap with
    | none => simp [hk] at hv1
    | some km =>
      simp only [kindsLoop, hk, leavesOfComp, List.flatMap_cons]
      rw [writeLeaves_append, ← namesLoop_proj]
      cases hr : namesLoop env R comp kind km w with
      | mk o w1 =>
        cases o with
        | some x => simp [proj]
        | none =>
          simp only [proj]
          exact ih w1 hv2

theorem compsLoop_proj (env : Env) (R : String) (rec : Record) (w : World)
    (hv : fullyValid rec = true) :
    proj (compsLoop env R rec w) = writeLeaves env R (leaves rec) w.obs ∨
      ∃ n p e ctx, env.MkdirAll n p = some e ∧ (compsLoop env R rec w).1
        = some (Exit.fatal "failed to create component output directory" ctx) := by
  induction rec generalizing w with
  | nil => simp [compsLoop, leaves, writeLeaves, proj]
  | cons cv rec ih =>
    obtain ⟨comp, compRec⟩ := cv
    simp only [fullyValid, List.all_cons, Bool.and_eq_true] at hv
    obtain ⟨hv1, hv2⟩ := hv
    cases hc : compRec.asMap with
    | none => simp [hc] at hv1
    | some cm =>
      simp only [hc] at hv1
      simp only [compsLoop, hc, leaves, List.flatMap_cons]
      cases hm : env.MkdirAll (mkdirsOf w.trace).length (Join [R, env.ToLower comp]) with
      | some e => exact Or.inr ⟨_, _, e, _, hm, rfl⟩
      | none =>
        simp only
        rw [writeLeaves_append, ← obs_record_mkdir w (Join [R, env.ToLower comp]) none,
          ← kindsLoop_proj _ _ _ _ _ hv1]
        cases hr : kindsLoop env R comp cm
            (w.record (.mkdirAll (Join [R, env.ToLower comp]) none)) with
        | mk o w1 =>
          cases o with
          | some x => simp [proj]
          | none =>
            simp only [proj]
            exact ih w1 hv2

/-! ## The loops on any record -/

theorem compsLoop_append (env : Env) (R : String) (pre rest : Record) (w : World) :
    compsLoop env R (pre ++ rest) w =
      match compsLoop env R pre w with
      | (some x, w1) => (some x, w1)
      | (none, w1) => compsLoop env R rest w1 := by
  induction pre generalizing w with
  | nil => simp [compsLoop]
  | cons cv pre ih =>
    obtain ⟨comp, compRec⟩ := cv
    simp only [List.cons_append, compsLoop]
    cases hc : compRec.asMap with
    | none => simp
    | some cm =>
      simp only
      cases hm : env.MkdirAll (mkdirsOf w.trace).length (Join [R, env.ToLower comp]) with
      | some e => simp
      | none =>
        simp only
        cases hr : kindsLoop env R comp cm
            (w.record (.mkdirAll (Join [R, env.ToLower comp]) none)) with
        | mk o w1 =>
          cases o with
          | some x => simp
          | none => simp only; exact ih w1

theorem namesLoop_fatal (env : Env) (R comp kind : String) (m : List (String × Value))
    (w : World) (x : Exit) (h : (namesLoop env R comp kind m w).1 = some x) : x.code = 1 := by
  induction m generalizing w with
  | nil => simp [namesLoop] at h
  | cons nc m ih =>
    obtain ⟨name, contents⟩ := nc
    simp only [namesLoop] at h
    cases hres : writeYaml env (writesOf w.trace).length (filename env R comp kind name)
        contents with
    | mk err file =>
      rw [hres] at h
      cases err with
      | some e =>
        simp only [Option.some.injEq] at h
        rw [← h]; rfl
      | none => exact ih _ h

theorem kindsLoop_fatal (env : Env) (R comp : String) (cm : List (String × Value))
    (w : World) (x : Exit) (h : (kindsLoop env R comp cm w).1 = some x) : x.code = 1 := by
  induction cm generalizing w with
  | nil => simp [kindsLoop] at h
  | cons kv cm ih =>
    obtain ⟨kind, kindRec⟩ := kv
    simp only [kindsLoop] at h
    cases hk : kindRec.asMap with
    | none =>
      rw [hk] at h
      simp only [Option.some.injEq] at h
      rw [← h]; rfl
    | some km =>
      rw [hk] at h
      simp only at h
      cases hr : namesLoop env R comp kind km w with
      | mk o w1 =>
        rw [hr] at h
        cases o with
        | some y =>
          simp only [Option.some.injEq] at h
          subst h
          exact namesLoop_fatal env R comp kind km w y (by rw [hr])
        | none => exact ih _ h

theorem compsLoop_fatal (env : Env) (R : String) (rec : Record)
    (w : World) (x : Exit) (h : (compsLoop env R rec w).1 = some x) : x.code = 1 := by
  induction rec generalizing w with
  | nil => simp [compsLoop] at h
  | cons cv rec ih =>
    obtain ⟨comp, compRec⟩ := cv
    simp only [compsLoop] at h
    cases hc : compRec.asMap with
    | none =>
      rw [hc] at h
      simp only [Option.some.injEq] at h
      rw [← h]; rfl
    | some cm =>
      rw [hc] at h
      simp only at h
      cases hm : env.MkdirAll (mkdirsOf w.trace).length (Join [R, env.ToLower comp]) with
      | some e =>
        rw [hm] at h
        simp only [Option.some.injEq] at h
        rw [← h]; rfl
      | none =>
        rw [hm] at h
        simp only at h
        cases hr : kindsLoop env R comp cm
            (w.record (.mkdirAll (Join [R, env.ToLower comp]) none)) with
        | mk o w1 =>
          rw [hr] at h
          cases o with
          | some y =>
            simp only [Option.some.injEq] at h
            subst h
            exact kindsLoop_fatal env R comp cm _ y (by rw [hr])
          | none => exact ih _ h

theorem compsLoop_none (env : Env) (R : String) (rec : Record) (w : World)
    (h : (compsLoop env R rec w).1 = none) :
    (∀ c v, (c, v) ∈ rec → v.asMap ≠ none) ∧
      mkdirsOf (compsLoop env R rec w).2.trace
        = mkdirsOf w.trace ++ rec.map (fun cv => (Join [R, env.ToLower cv.1], none)) := by
  induction rec generalizing w with
  | nil => simp [compsLoop]
  | cons cv rec ih =>
    obtain ⟨comp, compRec⟩ := cv
    simp only [compsLoop] at h ⊢
    cases hc : compRec.asMap with
    | none => rw [hc] at h; simp at h
    | some cm =>
      rw [hc] at h
      simp only at h ⊢
      cases hm : env.MkdirAll (mkdirsOf w.trace).length (Join [R, env.ToLower comp]) with
      | some e => rw [hm] at h; simp at h
      | none =>
        rw [hm] at h
        simp only at h ⊢
        have hk := kindsLoop_mkdirs env R comp cm
          (w.record (.mkdirAll (Join [R, env.ToLower comp]) none))
        cases hr : kindsLoop env R comp cm
            (w.record (.mkdirAll (Join [R, env.ToLower comp]) none)) with
        | mk o w1 =>
          rw [hr] at h hk
          cases o with
          | some y => simp at h
          | none =>
            simp only at h ⊢
            obtain ⟨i1, i2⟩ := ih w1 h
            refine ⟨?_, ?_⟩
            · intro c v hcv
              rcases List.mem_cons.1 hcv with h1 | h1
              · simp only [Prod.mk.injEq] at h1
                rw [h1.2, hc]; simp
              · exact i1 c v h1
            · rw [i2, hk, mkdirs_record_mkdir]
              simp

/-! ## The run -/

theorem main_started (env : Env) (fl : Flags) (w : World) (rec : Record)
    (hs : Started env fl w rec) :
    main env fl w =
      match compsLoop env fl.outputDir rec (w.started fl) with
      | (some x, w3) => (x, w3)
      | (none, w3) => (Exit.done, w3) := by
  obtain ⟨h1, h2, h3, h4, h5, h6⟩ := hs
  simp [main, h1, h2, h3, h4, h5, h6, World.started]

theorem main_exit (env : Env) (fl : Flags) (w : World) (rec : Record)
    (hs : Started env fl w rec) :
    (main env fl w).2 = (compsLoop env fl.outputDir rec (w.started fl)).2 ∧
      (∀ x, (compsLoop env fl.outputDir rec (w.started fl)).1 = some x → (main env fl w).1 = x) ∧
      ((compsLoop env fl.outputDir rec (w.started fl)).1 = none →
        (main env fl w).1 = Exit.done) := by
  rw [main_started env fl w rec hs]
  cases hr : compsLoop env fl.outputDir rec (w.started fl) with
  | mk o w1 =>
    cases o with
    | some x => simp
    | none => simp

/-! ## Writes and files of a run -/

theorem mem_writesOf (tr : List Event) (f : String) (c : Value) (e : Option String) :
    (f, c, e) ∈ writesOf tr ↔ Event.writeYaml f c e ∈ tr := by
  simp only [writesOf, List.mem_filterMap]
  constructor
  · rintro ⟨ev, hev, h⟩
    cases ev with
    | writeYaml f1 c1 e1 =>
      simp only [Option.some.injEq, Prod.mk.injEq] at h
      obtain ⟨rfl, rfl, rfl⟩ := h
      exact hev
    | usage => simp at h
    | printVersion => simp at h
    | mkdirAll p1 e1 => simp at h
    | dhallToYaml f1 => simp at h
  · intro h
    exact ⟨_, h, rfl⟩

theorem started_obs (fl : Flags) (files : List (String × Bytes)) :
    ((World.init files).started fl).obs = ([], files) := by
  simp [World.started, World.record, World.init, World.obs, writesOf]

theorem writeLeaves_none (env : Env) (R : String) (l : List Leaf) (s : Obs)
    (h : (writeLeaves env R l s).1 = none) :
    ∀ i u, l[i]? = some u →
      (writeYaml env (s.1.length + i) (u.path env R) u.contents).1 = none := by
  induction l generalizing s with
  | nil => intro i u hu; simp at hu
  | cons t l ih =>
    simp only [writeLeaves] at h
    cases hres : writeYaml env s.1.length (t.path env R) t.contents with
    | mk err file =>
      rw [hres] at h
      cases err with
      | some e => simp at h
      | none =>
        simp only at h
        intro i u hu
        cases i with
        | zero =>
          simp only [List.getElem?_cons_zero, Option.some.injEq] at hu
          subst hu
          simp [hres]
        | succ i =>
          have := ih _ h i u (by simpa using hu)
          simpa [Nat.add_assoc, Nat.add_comm 1 i] using this

/-- When the write of `t` is the first that fails, the tuples before it are
written, the write of `t` is the last one issued, and the files on disk are
the earlier ones, those of the tuples before `t`, and that of `t` when it was
created. -/
theorem writeLeaves_fail (env : Env) (R : String) (pre post : List Leaf) (t : Leaf) (s : Obs)
    (e : String)
    (hpre : ∀ i u, pre[i]? = some u →
      (writeYaml env (s.1.length + i) (u.path env R) u.contents).1 = none)
    (hfail : (writeYaml env (s.1.length + pre.length) (t.path env R) t.contents).1 = some e) :
    (writeLeaves env R (pre ++ t :: post) s).1
        = some (Exit.fatal "failed to write yaml" [("file", t.path env R), ("error", e)]) ∧
      (writeLeaves env R (pre ++ t :: post) s).2.1
        = s.1 ++ pre.map (fun u => (u.path env R, u.contents, none))
            ++ [(t.path env R, t.contents, some e)] ∧
      (∀ p, p ∈ (writeLeaves env R (pre ++ t :: post) s).2.2.map Prod.fst ↔
        p ∈ s.2.map Prod.fst ∨ p ∈ pre.map (fun u => u.path env R) ∨
          (p = t.path env R ∧
            (env.fileIO (s.1.length + pre.length) (t.path env R)).createErr = none)) := by
  obtain ⟨o1, o2, o3, _⟩ := writeLeaves_ok env R pre s hpre
  rw [writeLeaves_append]
  cases hp : writeLeaves env R pre s with
  | mk o s1 =>
    rw [hp] at o1 o2 o3
    simp only at o1 o2 o3
    subst o1
    have hlen : s1.1.length = s.1.length + pre.length := by rw [o2]; simp
    simp only [writeLeaves, hlen]
    cases hres : writeYaml env (s.1.length + pre.length) (t.path env R) t.contents with
    | mk err file =>
      rw [hres] at hfail
      simp only at hfail
      subst hfail
      refine ⟨rfl, by simp [o2], ?_⟩
      intro p
      simp only
      cases hc : (env.fileIO (s.1.length + pre.length) (t.path env R)).createErr with
      | none =>
        obtain ⟨d, hd⟩ := writeYaml_created env _ _ t.contents hc
        rw [hres] at hd
        simp only at hd
        subst hd
        rw [mem_storeFile, o3 p]
        tauto
      | some e1 =>
        have := writeYaml_not_created env _ _ t.contents e1 hc
        rw [hres] at this
        simp only [Prod.mk.injEq] at this
        rw [this.2]
        simp only [storeFile]
        rw [o3 p]
        simp

theorem compsLoop_proj_of_mkdirs (env : Env) (R : String) (rec : Record) (w : World)
    (hv : fullyValid rec = true) (hmk : ∀ n p, env.MkdirAll n p = none) :
    proj (compsLoop env R rec w) = writeLeaves env R (leaves rec) w.obs := by
  rcases compsLoop_proj env R rec w hv with h | ⟨n, p, e, _, h, _⟩
  · exact h
  · rw [hmk] at h; cases h

theorem compsLoop_done (env : Env) (fl : Flags) (files : List (String × Bytes)) (rec : Record)
    (hs : Started env fl (World.init files) rec)
    (hdone : (main env fl (World.init files)).1 = Exit.done) :
    (compsLoop env fl.outputDir rec ((World.init files).started fl)).1 = none := by
  obtain ⟨_, m2, _⟩ := main_exit env fl _ rec hs
  cases hr : (compsLoop env fl.outputDir rec ((World.init files).started fl)).1 with
  | none => rfl
  | some x =>
    have h1 := compsLoop_fatal _ _ _ _ x hr
    rw [← m2 x hr, hdone] at h1
    cases h1

theorem main_first_failure (env : Env) (fl : Flags) (rec : Record) (pre post : List Leaf)
    (t : Leaf) (e : String)
    (hs : Started env fl (World.init []) rec) (hv : fullyValid rec = true)
    (hmk : ∀ n p, env.MkdirAll n p = none)
    (hsplit : leaves rec = pre ++ t :: post)
    (hpre : ∀ i u, pre[i]? = some u →
      (writeYaml env i (u.path env fl.outputDir) u.contents).1 = none)
    (hfail : (writeYaml env pre.length (t.path env fl.outputDir) t.contents).1 = some e) :
    (main env fl (World.init [])).1
        = Exit.fatal "failed to write yaml" [("file", t.path env fl.outputDir), ("error", e)] ∧
      (main env fl (World.init [])).1.code = 1 ∧
      writesOf (main env fl (World.init [])).2.trace
        = pre.map (fun u => (u.path env fl.outputDir, u.contents, none))
            ++ [(t.path env fl.outputDir, t.contents, some e)] ∧
      (∀ p, p ∈ (main env fl (World.init [])).2.files.map Prod.fst ↔
        p ∈ pre.map (fun u => u.path env fl.outputDir) ∨
          (p = t.path env fl.outputDir ∧
            (env.fileIO pre.length (t.path env fl.outputDir)).createErr = none)) := by
  obtain ⟨m1, m2, _⟩ := main_exit env fl _ rec hs
  have hp := compsLoop_proj_of_mkdirs env fl.outputDir rec ((World.init []).started fl) hv hmk
  rw [started_obs, hsplit] at hp
  obtain ⟨o1, o2, o3⟩ := writeLeaves_fail env fl.outputDir pre post t ([], []) e
    (by intro i u hu; simpa using hpre i u hu) (by simpa using hfail)
  rw [← hp] at o1 o2 o3
  simp only [proj, World.obs, List.nil_append, List.length_nil, Nat.zero_add, List.map_nil,
    List.not_mem_nil, false_or] at o1 o2 o3
  have h1 := m2 _ o1
  refine ⟨h1, by rw [h1]; rfl, ?_, ?_⟩
  · rw [m1]; exact o2
  · rw [m1]; exact o3

/-! ## Kind errors -/

theorem namesLoop_ok (env : Env) (R comp kind : String) (m : List (String × Value)) (w : World)
    (hwr : ∀ n p c, (writeYaml env n p c).1 = none) :
    (namesLoop env R comp kind m w).1 = none := by
  induction m generalizing w with
  | nil => rfl
  | cons nc m ih =>
    obtain ⟨name, contents⟩ := nc
    simp only [namesLoop]
    have h := hwr (writesOf w.trace).length (filename env R comp kind name) contents
    cases hres : writeYaml env (writesOf w.trace).length (filename env R comp kind name)
        contents with
    | mk err file =>
      rw [hres] at h
      simp only at h
      subst h
      exact ih _

theorem kindsLoop_cases (env : Env) (R comp : String) (cm : List (String × Value)) (w : World)
    (hwr : ∀ n p c, (writeYaml env n p c).1 = none) :
    ((kindsLoop env R comp cm w).1 = none ∧ kindsValid cm = true) ∨
      ∃ k kv, (k, kv) ∈ cm ∧ kv.asMap = none ∧
        (kindsLoop env R comp cm w).1
          = some (Exit.fatal "unexpected kind member" [("component", comp), ("kind", k)]) := by
  induction cm generalizing w with
  | nil => exact Or.inl ⟨rfl, rfl⟩
  | cons kv cm ih =>
    obtain ⟨kind, kindRec⟩ := kv
    simp only [kindsLoop]
    cases hk : kindRec.asMap with
    | none => exact Or.inr ⟨kind, kindRec, List.mem_cons_self _ _, hk, rfl⟩
    | some km =>
      simp only
      have h := namesLoop_ok env R comp kind km w hwr
      cases hr : namesLoop env R comp kind km w with
      | mk o w1 =>
        rw [hr] at h
        simp only at h
        subst h
        rcases ih w1 with ⟨h1, h2⟩ | ⟨k, kv, h1, h2, h3⟩
        · exact Or.inl ⟨h1, by simp [kindsValid, hk] at h2 ⊢; exact h2⟩
        · exact Or.inr ⟨k, kv, List.mem_cons_of_mem _ h1, h2, h3⟩

theorem compsLoop_cases (env : Env) (R : String) (rec : Record) (w : World)
    (hmk : ∀ n p, env.MkdirAll n p = none)
    (hwr : ∀ n p c, (writeYaml env n p c).1 = none)
    (hcomp : ∀ c v, (c, v) ∈ rec → v.asMap ≠ none) :
    ((compsLoop env R rec w).1 = none ∧ fullyValid rec = true) ∨
      ∃ c v cm k kv, (c, v) ∈ rec ∧ v.asMap = some cm ∧ (k, kv) ∈ cm ∧ kv.asMap = none ∧
        (compsLoop env R rec w).1
          = some (Exit.fatal "unexpected kind member" [("component", c), ("kind", k)]) := by
  induction rec generalizing w with
  | nil => exact Or.inl ⟨rfl, rfl⟩
  | cons cv rec ih =>
    obtain ⟨comp, compRec⟩ := cv
    simp only [compsLoop]
    cases hc : compRec.asMap with
    | none => exact absurd hc (hcomp comp compRec (List.mem_cons_self _ _))
    | some cm =>
      simp only [hmk]
      rcases kindsLoop_cases env R comp cm
          (w.record (.mkdirAll (Join [R, env.ToLower comp]) none)) hwr with
        ⟨h1, h2⟩ | ⟨k, kv, h1, h2, h3⟩
      · cases hr : kindsLoop env R comp cm
            (w.record (.mkdirAll (Join [R, env.ToLower comp]) none)) with
        | mk o w1 =>
          rw [hr] at h1
          simp only at h1
          subst h1
          simp only
          rcases ih w1 (fun c v h => hcomp c v (List.mem_cons_of_mem _ h)) with
            ⟨i1, i2⟩ | ⟨c, v, cm1, k, kv, i1, i2, i3, i4, i5⟩
          · exact Or.inl ⟨i1, by simp [fullyValid, hc, h2] at i2 ⊢; exact i2⟩
          · exact Or.inr ⟨c, v, cm1, k, kv, List.mem_cons_of_mem _ i1, i2, i3, i4, i5⟩
      · refine Or.inr ⟨comp, compRec, cm, k, kv, List.mem_cons_self _ _, hc, h1, h2, ?_⟩
        cases hr : kindsLoop env R comp cm
            (w.record (.mkdirAll (Join [R, env.ToLower comp]) none)) with
        | mk o w1 =>
          rw [hr] at h3
          simp only at h3
          subst h3
          rfl

theorem fullyValid_kinds (rec : Record) (hv : fullyValid rec = true) (c : String) (v : Value)
    (cm : List (String × Value)) (k : String) (kv : Value) (h1 : (c, v) ∈ rec)
    (h2 : v.asMap = some cm) (h3 : (k, kv) ∈ cm) : kv.asMap ≠ none := by
  simp only [fullyValid, List.all_eq_true] at hv
  have := hv (c, v) h1
  simp only [h2, kindsValid, List.all_eq_true] at this
  have := this (k, kv) h3
  intro h0
  simp [h0] at this

theorem filename_eq_iff (env : Env) (R C1 K1 N1 C2 K2 N2 : String)
    (hc1 : Plain (env.ToLower C1)) (hc2 : Plain (env.ToLower C2))
    (hn1 : '/' ∉ N1.data) (hn2 : '/' ∉ N2.data)
    (hk1 : '/' ∉ K1.data) (hk2 : '/' ∉ K2.data)
    (hd1 : '.' ∉ K1.data) (hd2 : '.' ∉ K2.data) :
    Join [R, env.ToLower C1, Sprintf N1 K1] = Join [R, env.ToLower C2, Sprintf N2 K2] ↔
      (env.ToLower C1 = env.ToLower C2 ∧ K1 = K2 ∧ N1 = N2) := by
  constructor
  · intro h
    obtain ⟨pre, hpre⟩ := Join_plain R
    obtain ⟨a1, a2, a3, a4⟩ := Sprintf_plain N1 K1 hn1 hk1
    obtain ⟨b1, b2, b3, b4⟩ := Sprintf_plain N2 K2 hn2 hk2
    have h1 := congrArg String.data h
    rw [hpre _ _ hc1 a1 a2 a3 a4, hpre _ _ hc2 b1 b2 b3 b4] at h1
    have h2 := split_first '/' _ _ _ _ hc1.2.2.2 hc2.2.2.2 (List.append_cancel_left h1)
    have h3 := h2.2
    rw [Sprintf_data, Sprintf_data] at h3
    have h4 := split_last '.' _ _ _ _ hd1 hd2 (List.append_cancel_right h3)
    exact ⟨String.ext h2.1, String.ext h4.2, String.ext h4.1⟩
  · rintro ⟨h1, h2, h3⟩
    rw [h1, h2, h3]

theorem kindsLoop_append (env : Env) (R comp : String) (pre rest : List (String × Value))
    (w : World) :
    kindsLoop env R comp (pre ++ rest) w =
      match kindsLoop env R comp pre w with
      | (some x, w1) => (some x, w1)
      | (none, w1) => kindsLoop env R comp rest w1 := by
  induction pre generalizing w with
  | nil => simp [kindsLoop]
  | cons kv pre ih =>
    obtain ⟨kind, kindRec⟩ := kv
    simp only [List.cons_append, kindsLoop]
    cases hk : kindRec.asMap with
    | none => simp
    | some km =>
      simp only
      cases hr : namesLoop env R comp kind km w with
      | mk o w1 =>
        cases o with
        | some x => simp
        | none => simp only; exact ih w1

theorem kindsValid_mem (cm : List (String × Value)) (hv : kindsValid cm = true) (k : String)
    (kv : Value) (h : (k, kv) ∈ cm) : kv.asMap ≠ none := by
  simp only [kindsValid, List.all_eq_true] at hv
  have := hv (k, kv) h
  intro h0
  simp [h0] at this

theorem fullyValid_comps (rec : Record) (hv : fullyValid rec = true) (c : String) (v : Value)
    (h : (c, v) ∈ rec) : v.asMap ≠ none := by
  simp only [fullyValid, List.all_eq_true] at hv
  have := hv (c, v) h
  intro h0
  simp [h0] at this

theorem kindsLoop_valid_none (env : Env) (R comp : String) (cm : List (String × Value))
    (w : World) (hwr : ∀ n p c, (writeYaml env n p c).1 = none)
    (hv : kindsValid cm = true) : (kindsLoop env R comp cm w).1 = none := by
  rcases kindsLoop_cases env R comp cm w hwr with ⟨h, _⟩ | ⟨k, kv, h1, h2, _⟩
  · exact h
  · exact absurd h2 (kindsValid_mem cm hv k kv h1)

theorem compsLoop_valid_none (env : Env) (R : String) (rec : Record) (w : World)
    (hmk : ∀ n p, env.MkdirAll n p = none)
    (hwr : ∀ n p c, (writeYaml env n p c).1 = none)
    (hv : fullyValid rec = true) : (compsLoop env R rec w).1 = none := by
  rcases compsLoop_cases env R rec w hmk hwr (fullyValid_comps rec hv) with
    ⟨h, _⟩ | ⟨c, v, cm, k, kv, h1, h2, h3, h4, _⟩
  · exact h
  · exact absurd h4 (fullyValid_kinds rec hv c v cm k kv h1 h2 h3)

/-- With every directory creation and every write succeeding, the loop stops
at the first kind that is not a mapping and names it with its component. -/
theorem compsLoop_first_bad_kind (env : Env) (R : String) (pre post : Record) (c : String)
    (v : Value) (cm kpre kpost : List (String × Value)) (k : String) (kv : Value) (w : World)
    (hmk : ∀ n p, env.MkdirAll n p = none)
    (hwr : ∀ n p c, (writeYaml env n p c).1 = none)
    (hv : v.asMap = some cm) (hksplit : cm = kpre ++ (k, kv) :: kpost)
    (hkv : kv.asMap = none) (hpre : fullyValid pre = true) (hkpre : kindsValid kpre = true) :
    (compsLoop env R (pre ++ (c, v) :: post) w).1
      = some (Exit.fatal "unexpected kind member" [("component", c), ("kind", k)]) := by
  rw [compsLoop_append]
  have h1 := compsLoop_valid_none env R pre w hmk hwr hpre
  cases hp : compsLoop env R pre w with
  | mk o w1 =>
    rw [hp] at h1
    simp only at h1
    subst h1
    simp only [compsLoop, hv, hmk, hksplit]
    rw [kindsLoop_append]
    have h2 := kindsLoop_valid_none env R c kpre
      (w1.record (.mkdirAll (Join [R, env.ToLower c]) none)) hwr hkpre
    cases hk : kindsLoop env R c kpre
        (w1.record (.mkdirAll (Join [R, env.ToLower c]) none)) with
    | mk o2 w2 =>
      rw [hk] at h2
      simp only at h2
      subst h2
      simp [kindsLoop, hkv, logFatal]

/-! ## Directories before files -/

theorem snoc_eq_split (tr pre post : List Event) (x y : Event)
    (h : tr ++ [x] = pre ++ y :: post) :
    (pre = tr ∧ y = x ∧ post = []) ∨ ∃ post1, tr = pre ++ y :: post1 := by
  rcases List.append_eq_append_iff.1 h with ⟨a, h1, h2⟩ | ⟨c, h1, h2⟩
  · cases a with
    | nil =>
      simp only [List.nil_append, List.cons.injEq] at h2
      exact Or.inl ⟨by simpa using h1, h2.1.symm, h2.2.symm⟩
    | cons z a =>
      have := congrArg List.length h2
      simp at this
  · cases c with
    | nil =>
      simp only [List.nil_append, List.cons.injEq] at h2
      exact Or.inl ⟨by simpa using h1.symm, h2.1, h2.2⟩
    | cons z c =>
      simp only [List.cons_append, List.cons.injEq] at h2
      exact Or.inr ⟨c, by rw [h1, h2.1]⟩

theorem DirsFirst.snoc_mkdir (env : Env) (R : String) (P : Leaf → Prop) (tr : List Event)
    (p : String) (err : Option String) (h : DirsFirst env R P tr) :
    DirsFirst env R P (tr ++ [.mkdirAll p err]) := by
  intro pre post fn c e heq
  rcases snoc_eq_split _ _ _ _ _ heq with ⟨_, h2, _⟩ | ⟨post1, h1⟩
  · cases h2
  · exact h pre post1 fn c e h1

theorem DirsFirst.snoc_write (env : Env) (R : String) (P : Leaf → Prop) (tr : List Event)
    (t : Leaf) (err : Option String) (h : DirsFirst env R P tr) (ht : P t)
    (hd : Event.mkdirAll (Join [R, env.ToLower t.comp]) none ∈ tr) :
    DirsFirst env R P (tr ++ [.writeYaml (t.path env R) t.contents err]) := by
  intro pre post fn c e heq
  rcases snoc_eq_split _ _ _ _ _ heq with ⟨h1, h2, _⟩ | ⟨post1, h1⟩
  · simp only [Event.writeYaml.injEq] at h2
    exact ⟨t, ht, h2.1, h2.2.1, h1 ▸ hd⟩
  · exact h pre post1 fn c e h1

theorem namesLoop_dirs (env : Env) (R comp kind : String) (P : Leaf → Prop)
    (m : List (String × Value)) (w : World)
    (h : DirsFirst env R P w.trace)
    (hd : Event.mkdirAll (Join [R, env.ToLower comp]) none ∈ w.trace)
    (hP : ∀ nc ∈ m, P ⟨comp, kind, nc.1, nc.2⟩) :
    DirsFirst env R P (namesLoop env R comp kind m w).2.trace ∧
      Event.mkdirAll (Join [R, env.ToLower comp]) none
        ∈ (namesLoop env R comp kind m w).2.trace := by
  induction m generalizing w with
  | nil => exact ⟨h, hd⟩
  | cons nc m ih =>
    obtain ⟨name, contents⟩ := nc
    simp only [namesLoop]
    have hstep : DirsFirst env R P
        (w.trace ++ [.writeYaml (filename env R comp kind name) contents
          (writeYaml env (writesOf w.trace).length (filename env R comp kind name) contents).1]) :=
      DirsFirst.snoc_write env R P w.trace ⟨comp, kind, name, contents⟩ _ h
        (hP (name, contents) (List.mem_cons_self _ _)) hd
    have hd1 : Event.mkdirAll (Join [R, env.ToLower comp]) none
        ∈ w.trace ++ [.writeYaml (filename env R comp kind name) contents
          (writeYaml env (writesOf w.trace).length (filename env R comp kind name) contents).1] :=
      List.mem_append_left _ hd
    cases hres : writeYaml env (writesOf w.trace).length (filename env R comp kind name)
        contents with
    | mk err file =>
      rw [hres] at hstep hd1
      cases err with
      | some e => exact ⟨hstep, hd1⟩
      | none =>
        exact ih _ hstep hd1 (fun nc hnc => hP nc (List.mem_cons_of_mem _ hnc))

theorem kindsLoop_dirs (env : Env) (R comp : String) (P : Leaf → Prop)
    (cm : List (String × Value)) (w : World)
    (h : DirsFirst env R P w.trace)
    (hd : Event.mkdirAll (Join [R, env.ToLower comp]) none ∈ w.trace)
    (hP : ∀ kv ∈ cm, ∀ km, kv.2.asMap = some km → ∀ nc ∈ km, P ⟨comp, kv.1, nc.1, nc.2⟩) :
    DirsFirst env R P (kindsLoop env R comp cm w).2.trace := by
  induction cm generalizing w with
  | nil => exact h
  | cons kv cm ih =>
    obtain ⟨kind, kindRec⟩ := kv
    simp only [kindsLoop]
    cases hk : kindRec.asMap with
    | none => exact h
    | some km =>
      simp only
      have hn := namesLoop_dirs env R comp kind P km w h hd
        (hP (kind, kindRec) (List.mem_cons_self _ _) km hk)
      cases hr : namesLoop env R comp kind km w with
      | mk o w1 =>
        rw [hr] at hn
        cases o with
        | some x => exact hn.1
        | none =>
          exact ih w1 hn.1 hn.2 (fun kv hkv => hP kv (List.mem_cons_of_mem _ hkv))

theorem compsLoop_dirs (env : Env) (R : String) (P : Leaf → Prop) (rec : Record) (w : World)
    (h : DirsFirst env R P w.trace)
    (hP : ∀ cv ∈ rec, ∀ cm, cv.2.asMap = some cm → ∀ kv ∈ cm, ∀ km, kv.2.asMap = some km →
      ∀ nc ∈ km, P ⟨cv.1, kv.1, nc.1, nc.2⟩) :
    DirsFirst env R P (compsLoop env R rec w).2.trace := by
  induction rec generalizing w with
  | nil => exact h
  | cons cv rec ih =>
    obtain ⟨comp, compRec⟩ := cv
    simp only [compsLoop]
    cases hc : compRec.asMap with
    | none => exact h
    | some cm =>
      simp only
      cases hm : env.MkdirAll (mkdirsOf w.trace).length (Join [R, env.ToLower comp]) with
      | some e => exact DirsFirst.snoc_mkdir env R P w.trace _ _ h
      | none =>
        simp only
        have hk := kindsLoop_dirs env R comp P cm
          (w.record (.mkdirAll (Join [R, env.ToLower comp]) none))
          (DirsFirst.snoc_mkdir env R P w.trace _ _ h) (by simp [World.record])
          (hP (comp, compRec) (List.mem_cons_self _ _) cm hc)
        cases hr : kindsLoop env R comp cm
            (w.record (.mkdirAll (Join [R, env.ToLower comp]) none)) with
        | mk o w1 =>
          rw [hr] at hk
          cases o with
          | some x => exact hk
          | none => exact ih w1 hk (fun cv hcv => hP cv (List.mem_cons_of_mem _ hcv))

theorem mem_leaves (rec : Record) (cv : String × Value) (cm : List (String × Value))
    (kv : String × Value) (km : List (String × Value)) (nc : String × Value)
    (h1 : cv ∈ rec) (h2 : cv.2.asMap = some cm) (h3 : kv ∈ cm) (h4 : kv.2.asMap = some km)
    (h5 : nc ∈ km) : (⟨cv.1, kv.1, nc.1, nc.2⟩ : Leaf) ∈ leaves rec := by
  simp only [leaves, List.mem_flatMap]
  refine ⟨cv, h1, ?_⟩
  simp only [h2, leavesOfComp, List.mem_flatMap]
  refine ⟨kv, h3, ?_⟩
  simp only [h4, leavesOfKind, List.mem_map]
  exact ⟨nc, h5, rfl⟩

theorem started_dirs (env : Env) (fl : Flags) (files : List (String × Bytes))
    (P : Leaf → Prop) :
    DirsFirst env fl.outputDir P ((World.init files).started fl).trace := by
  intro pre post fn c e heq
  simp only [World.started, World.record, World.init, List.nil_append] at heq
  have h1 : Event.writeYaml fn c e ∈ [Event.mkdirAll fl.outputDir none] ++
      [Event.dhallToYaml fl.recordFile] := by rw [heq]; simp
  simp at h1

theorem main_dirs (env : Env) (fl : Flags) (files : List (String × Bytes)) (rec : Record)
    (hs : Started env fl (World.init files) rec) :
    DirsFirst env fl.outputDir (fun t => t ∈ leaves rec)
      (main env fl (World.init files)).2.trace := by
  obtain ⟨m1, _, _⟩ := main_exit env fl _ rec hs
  rw [m1]
  apply compsLoop_dirs _ _ _ _ _ (started_dirs env fl files _)
  intro cv h1 cm h2 kv h3 km h4 nc h5
  exact mem_leaves rec cv cm kv km nc h1 h2 h3 h4 h5

theorem compsLoop_mkdirs_any (env : Env) (R : String) (rec : Record) (w : World) :
    ∃ k, k ≤ rec.length ∧
      (mkdirsOf (compsLoop env R rec w).2.trace).map Prod.fst
        = (mkdirsOf w.trace).map Prod.fst
            ++ (rec.take k).map (fun cv => Join [R, env.ToLower cv.1]) := by
  induction rec generalizing w with
  | nil => exact ⟨0, Nat.le_refl _, by simp [compsLoop]⟩
  | cons cv rec ih =>
    obtain ⟨comp, compRec⟩ := cv
    simp only [compsLoop]
    cases hc : compRec.asMap with
    | none => exact ⟨0, Nat.zero_le _, by simp⟩
    | some cm =>
      simp only
      cases hm : env.MkdirAll (mkdirsOf w.trace).length (Join [R, env.ToLower comp]) with
      | some e => exact ⟨1, by simp, by simp [mkdirs_record_mkdir]⟩
      | none =>
        simp only
        have hk := kindsLoop_mkdirs env R comp cm
          (w.record (.mkdirAll (Join [R, env.ToLower comp]) none))
        cases hr : kindsLoop env R comp cm
            (w.record (.mkdirAll (Join [R, env.ToLower comp]) none)) with
        | mk o w1 =>
          rw [hr] at hk
          simp only at hk
          cases o with
          | some x => exact ⟨1, by simp, by simp [hk, mkdirs_record_mkdir]⟩
          | none =>
            obtain ⟨k, hk1, hk2⟩ := ih w1
            refine ⟨k + 1, by simp [hk1], ?_⟩
            simp only
            rw [hk2, hk, mkdirs_record_mkdir]
            simp

/-! ## The claims -/

/-- Claim C1: on a record whose component and kind values are all mappings,
with every directory creation and every write succeeding, the run ends
normally and issues, for the tuples in iteration order, one write each to
`filepath.Join(R, lowercase(C), N + "." + K + ".yaml")` with the contents of
the tuple as payload. -/
theorem C1_leaf_writes (env : Env) (fl : Flags) (files : List (String × Bytes)) (rec : Record)
    (hs : Started env fl (World.init files) rec) (hv : fullyValid rec = true)
    (hmk : ∀ n p, env.MkdirAll n p = none)
    (hwr : ∀ i t, (leaves rec)[i]? = some t →
      (writeYaml env i
        (Join [fl.outputDir, env.ToLower t.comp, t.name ++ "." ++ t.kind ++ ".yaml"])
        t.contents).1 = none) :
    (main env fl (World.init files)).1 = Exit.done ∧
      writesOf (main env fl (World.init files)).2.trace
        = (leaves rec).map (fun t =>
            (Join [fl.outputDir, env.ToLower t.comp, t.name ++ "." ++ t.kind ++ ".yaml"],
              t.contents, none)) ∧
      ∀ t ∈ leaves rec,
        Event.writeYaml
          (Join [fl.outputDir, env.ToLower t.comp, t.name ++ "." ++ t.kind ++ ".yaml"])
          t.contents none ∈ (main env fl (World.init files)).2.trace := by
  obtain ⟨m1, _, m3⟩ := main_exit env fl _ rec hs
  have hp := compsLoop_proj_of_mkdirs env fl.outputDir rec ((World.init files).started fl) hv hmk
  rw [started_obs] at hp
  obtain ⟨o1, o2, _, _⟩ := writeLeaves_ok env fl.outputDir (leaves rec) ([], files) (by
    intro i u hu
    simpa using hwr i u hu)
  rw [← hp] at o1 o2
  simp only [proj, World.obs, List.nil_append] at o1 o2
  have hw : writesOf (main env fl (World.init files)).2.trace
      = (leaves rec).map (fun t =>
          (Join [fl.outputDir, env.ToLower t.comp, t.name ++ "." ++ t.kind ++ ".yaml"],
            t.contents, none)) := by
    rw [m1, o2]; rfl
  refine ⟨m3 o1, hw, ?_⟩
  intro t ht
  rw [← mem_writesOf, hw]
  exact List.mem_map.2 ⟨t, ht, rfl⟩

theorem C1_leaf_writes_witness :
    (main (okEnv apiRecord) demoFlags (World.init [])).1 = Exit.done ∧
      Event.writeYaml "/out/api/frontend.service.yaml" (.mapping [("port", .scalar "8080")]) none
        ∈ (main (okEnv apiRecord) demoFlags (World.init [])).2.trace :=
  ⟨(C1_leaf_writes (okEnv apiRecord) demoFlags [] apiRecord
      ⟨rfl, rfl, by decide, by decide, rfl, rfl⟩ rfl (fun _ _ => rfl)
      (fun i _ _ => okEnv_writes apiRecord i _ _)).1,
   (C1_leaf_writes (okEnv apiRecord) demoFlags [] apiRecord
      ⟨rfl, rfl, by decide, by decide, rfl, rfl⟩ rfl (fun _ _ => rfl)
      (fun i _ _ => okEnv_writes apiRecord i _ _)).2.2
      ⟨"Api", "service", "frontend", .mapping [("port", .scalar "8080")]⟩
      (by simp [leaves, leavesOfComp, leavesOfKind, apiRecord, Value.asMap])⟩

/-- Claim C2, amended: after a successful run on a valid record in an empty
output root, the files on disk are those at the resolved paths of the tuples;
when no two tuples resolve to the same path (in particular no two components
differ only by case) there is exactly one file per tuple. -/
theorem C2_one_file_per_leaf (env : Env) (fl : Flags) (rec : Record)
    (hs : Started env fl (World.init []) rec) (hv : fullyValid rec = true)
    (hdone : (main env fl (World.init [])).1 = Exit.done) :
    (∀ p, p ∈ (main env fl (World.init [])).2.files.map Prod.fst ↔
      p ∈ (leaves rec).map (fun t =>
        Join [fl.outputDir, env.ToLower t.comp, t.name ++ "." ++ t.kind ++ ".yaml"])) ∧
    ((main env fl (World.init [])).2.files.map Prod.fst).Nodup ∧
    (((leaves rec).map (fun t =>
        Join [fl.outputDir, env.ToLower t.comp, t.name ++ "." ++ t.kind ++ ".yaml"])).Nodup →
      (main env fl (World.init [])).2.files.length = (leaves rec).length) := by
  obtain ⟨m1, _, _⟩ := main_exit env fl _ rec hs
  have hnone := compsLoop_done env fl [] rec hs hdone
  have hp : proj (compsLoop env fl.outputDir rec ((World.init []).started fl))
      = writeLeaves env fl.outputDir (leaves rec) ([], []) := by
    rcases compsLoop_proj env fl.outputDir rec ((World.init []).started fl) hv with
      h | ⟨_, _, _, _, _, h⟩
    · rw [started_obs] at h; exact h
    · rw [hnone] at h; cases h
  have hw : (writeLeaves env fl.outputDir (leaves rec) ([], [])).1 = none := by
    rw [← hp]; exact hnone
  obtain ⟨_, _, o3, o4⟩ := writeLeaves_ok env fl.outputDir (leaves rec) ([], [])
    (writeLeaves_none env fl.outputDir (leaves rec) ([], []) hw)
  rw [← hp] at o3 o4
  simp only [proj, World.obs, List.map_nil, List.not_mem_nil, false_or] at o3 o4
  rw [← m1] at o3 o4
  have hmem : ∀ p, p ∈ (main env fl (World.init [])).2.files.map Prod.fst ↔
      p ∈ (leaves rec).map (fun t =>
        Join [fl.outputDir, env.ToLower t.comp, t.name ++ "." ++ t.kind ++ ".yaml"]) := o3
  have hnd := o4 List.nodup_nil
  refine ⟨hmem, hnd, ?_⟩
  intro hl
  have := ((List.perm_ext_iff_of_nodup hnd hl).2 hmem).length_eq
  simpa using this

theorem C2_one_file_per_leaf_witness :
    (main (okEnv apiRecord) demoFlags (World.init [])).2.files.length
      = (leaves apiRecord).length :=
  (C2_one_file_per_leaf (okEnv apiRecord) demoFlags apiRecord
    ⟨rfl, rfl, by decide, by decide, rfl, rfl⟩ rfl rfl).2.2 (by decide)

/-- Claim C2 as stated fails: a valid record with two components that differ
only by case has two tuples, and the successful run leaves one file. -/
theorem C2_case_collision :
    fullyValid caseRecord = true ∧
      (main (okEnv caseRecord) demoFlags (World.init [])).1 = Exit.done ∧
      (leaves caseRecord).length = 2 ∧
      (main (okEnv caseRecord) demoFlags (World.init [])).2.files
        = [("/out/foo/web.service.yaml", [50, 10])] :=
  ⟨rfl, rfl, rfl, rfl⟩

/-- Claim C3, amended: a record with a component that is not a mapping always
ends the run with exit code 1, and with the error `unexpected component member`
naming that component when the components visited before it were processed
without error, and otherwise with the error of that earlier component. -/
theorem C3_component_error (env : Env) (fl : Flags) (files : List (String × Bytes))
    (rec pre post : Record) (c : String) (v : Value)
    (hs : Started env fl (World.init files) rec)
    (hsplit : rec = pre ++ (c, v) :: post) (hv : v.asMap = none) :
    (main env fl (World.init files)).1.code = 1 ∧
      ((compsLoop env fl.outputDir pre ((World.init files).started fl)).1 = none →
        (main env fl (World.init files)).1
          = Exit.fatal "unexpected component member" [("component", c)]) ∧
      (∀ x, (compsLoop env fl.outputDir pre ((World.init files).started fl)).1 = some x →
        (main env fl (World.init files)).1 = x) := by
  obtain ⟨_, m2, m3⟩ := main_exit env fl _ rec hs
  have hstep : ∀ w1, compsLoop env fl.outputDir ((c, v) :: post) w1
      = (some (Exit.fatal "unexpected component member" [("component", c)]), w1) := by
    intro w1; simp [compsLoop, hv, logFatal]
  constructor
  · cases hr : (compsLoop env fl.outputDir rec ((World.init files).started fl)).1 with
    | some x => rw [m2 x hr]; exact compsLoop_fatal _ _ _ _ x hr
    | none =>
      have := (compsLoop_none env fl.outputDir rec _ hr).1 c v (by simp [hsplit])
      exact absurd hv this
  refine ⟨?_, ?_⟩
  · intro hpre
    apply m2
    rw [hsplit, compsLoop_append]
    cases hp : compsLoop env fl.outputDir pre ((World.init files).started fl) with
    | mk o w1 =>
      rw [hp] at hpre
      simp only at hpre
      subst hpre
      simp [hstep]
  · intro x hx
    apply m2
    rw [hsplit, compsLoop_append]
    cases hp : compsLoop env fl.outputDir pre ((World.init files).started fl) with
    | mk o w1 =>
      rw [hp] at hx
      simp only at hx
      subst hx
      rfl

theorem C3_component_error_witness :
    (main (okEnv apiBadRecord) demoFlags (World.init [])).1.code = 1 ∧
      (main (okEnv apiBadRecord) demoFlags (World.init [])).1
        = Exit.fatal "unexpected component member" [("component", "Api")] :=
  ⟨(C3_component_error (okEnv apiBadRecord) demoFlags [] apiBadRecord [] [] "Api"
      (.scalar "not-a-mapping") ⟨rfl, rfl, by decide, by decide, rfl, rfl⟩ rfl rfl).1,
   (C3_component_error (okEnv apiBadRecord) demoFlags [] apiBadRecord [] [] "Api"
      (.scalar "not-a-mapping") ⟨rfl, rfl, by decide, by decide, rfl, rfl⟩ rfl rfl).2.1 rfl⟩

/-- Claim C3 as stated fails: the record has a component that is not a mapping,
yet the run ends with the kind error of a component visited before it. -/
theorem C3_kind_error_first :
    (("Db", Value.scalar "not-a-mapping") ∈ kindFirstRecord ∧
      (Value.scalar "not-a-mapping").asMap = none) ∧
    (main (okEnv kindFirstRecord) demoFlags (World.init [])).1
      = Exit.fatal "unexpected kind member" [("component", "Api"), ("kind", "service")] ∧
    ∀ ctx, (main (okEnv kindFirstRecord) demoFlags (World.init [])).1
      ≠ Exit.fatal "unexpected component member" ctx := by
  have h : (main (okEnv kindFirstRecord) demoFlags (World.init [])).1
      = Exit.fatal "unexpected kind member" [("component", "Api"), ("kind", "service")] := rfl
  refine ⟨⟨by simp [kindFirstRecord], rfl⟩, h, ?_⟩
  intro ctx hc
  rw [h] at hc
  simp only [Exit.fatal.injEq] at hc
  exact absurd hc.1 (by decide)

/-- Claim C4, amended: when a component is not a mapping, the run does nothing
for it or for the components after it, and what it did is what the loop over
the components visited before it does: their files are written and stay, every
write is that of a tuple of those components, and when the offending
component is visited first no write is issued at all. -/
theorem C4_writes_before_violation (env : Env) (fl : Flags) (files : List (String × Bytes))
    (rec pre post : Record) (c : String) (v : Value)
    (hs : Started env fl (World.init files) rec)
    (hsplit : rec = pre ++ (c, v) :: post) (hv : v.asMap = none) :
    (main env fl (World.init files)).2
        = (compsLoop env fl.outputDir pre ((World.init files).started fl)).2 ∧
      (∀ fn c e, Event.writeYaml fn c e ∈ (main env fl (World.init files)).2.trace →
        ∃ t, t ∈ leaves pre ∧
          fn = Join [fl.outputDir, env.ToLower t.comp, t.name ++ "." ++ t.kind ++ ".yaml"] ∧
          c = t.contents) ∧
      (pre = [] → writesOf (main env fl (World.init files)).2.trace = [] ∧
        (main env fl (World.init files)).2.files = files) := by
  obtain ⟨m1, _, _⟩ := main_exit env fl _ rec hs
  have key : (main env fl (World.init files)).2
      = (compsLoop env fl.outputDir pre ((World.init files).started fl)).2 := by
    rw [m1, hsplit, compsLoop_append]
    cases hp : compsLoop env fl.outputDir pre ((World.init files).started fl) with
    | mk o w1 =>
      cases o with
      | some x => rfl
      | none => simp [compsLoop, hv]
  refine ⟨key, ?_, ?_⟩
  · intro fn c e hmem
    rw [key] at hmem
    obtain ⟨a, b, hab⟩ := List.append_of_mem hmem
    have hd := compsLoop_dirs env fl.outputDir (fun t => t ∈ leaves pre) pre
      ((World.init files).started fl) (started_dirs env fl files _)
      (fun cv h1 cm h2 kv h3 km h4 nc h5 => mem_leaves pre cv cm kv km nc h1 h2 h3 h4 h5)
    obtain ⟨t, t1, t2, t3, _⟩ := hd a b fn c e hab
    exact ⟨t, t1, t2, t3⟩
  · intro hpre
    rw [key, hpre]
    simp [compsLoop, World.started, World.record, World.init, writesOf]

theorem C4_writes_before_violation_witness :
    (main (okEnv apiBadRecord) demoFlags (World.init [])).2
        = (compsLoop (okEnv apiBadRecord) demoFlags.outputDir []
            ((World.init []).started demoFlags)).2 ∧
      writesOf (main (okEnv apiBadRecord) demoFlags (World.init [])).2.trace = [] ∧
        (main (okEnv apiBadRecord) demoFlags (World.init [])).2.files = [] :=
  ⟨(C4_writes_before_violation (okEnv apiBadRecord) demoFlags [] apiBadRecord [] [] "Api"
      (.scalar "not-a-mapping") ⟨rfl, rfl, by decide, by decide, rfl, rfl⟩ rfl rfl).1,
   (C4_writes_before_violation (okEnv apiBadRecord) demoFlags [] apiBadRecord [] [] "Api"
      (.scalar "not-a-mapping") ⟨rfl, rfl, by decide, by decide, rfl, rfl⟩ rfl rfl).2.2 rfl⟩

/-- Claim C4 as stated fails: the record has a component that is not a mapping,
and the file of the component visited before it is written. -/
theorem C4_file_written_before_violation :
    (("Db", Value.scalar "not-a-mapping") ∈ lateBadRecord ∧
      (Value.scalar "not-a-mapping").asMap = none) ∧
    (main (okEnv lateBadRecord) demoFlags (World.init [])).1
      = Exit.fatal "unexpected component member" [("component", "Db")] ∧
    (writesOf (main (okEnv lateBadRecord) demoFlags (World.init [])).2.trace).length = 1 ∧
    (main (okEnv lateBadRecord) demoFlags (World.init [])).2.files
      = [("/out/api/frontend.service.yaml", [56, 48, 56, 48, 10])] := by
  refine ⟨⟨by simp [lateBadRecord], rfl⟩, rfl, rfl, rfl⟩

/-- Claim C5, amended: when every component value is a mapping and the value
of kind `k` of component `c` is not, with every directory creation and every
write succeeding, the run ends with exit code 1 and the error `unexpected kind
member` naming a component and a kind of it whose value is not a mapping; it
names `c` and `k` when every kind visited before `k`, in the components before
`c` and earlier in `c`, is a mapping, so the pair named is the first one in
iteration order. -/
theorem C5_kind_error (env : Env) (fl : Flags) (files : List (String × Bytes))
    (rec pre post : Record) (c : String) (v : Value) (cm kpre kpost : List (String × Value))
    (k : String) (kv : Value)
    (hs : Started env fl (World.init files) rec)
    (hcomp : ∀ c v, (c, v) ∈ rec → v.asMap ≠ none)
    (hsplit : rec = pre ++ (c, v) :: post) (hv : v.asMap = some cm)
    (hksplit : cm = kpre ++ (k, kv) :: kpost) (hkv : kv.asMap = none)
    (hmk : ∀ n p, env.MkdirAll n p = none)
    (hwr : ∀ n p c, (writeYaml env n p c).1 = none) :
    (main env fl (World.init files)).1.code = 1 ∧
      (∃ c1 v1 cm1 k1 kv1, (c1, v1) ∈ rec ∧ v1.asMap = some cm1 ∧ (k1, kv1) ∈ cm1 ∧
        kv1.asMap = none ∧
        (main env fl (World.init files)).1
          = Exit.fatal "unexpected kind member" [("component", c1), ("kind", k1)]) ∧
      (fullyValid pre = true → kindsValid kpre = true →
        (main env fl (World.init files)).1
          = Exit.fatal "unexpected kind member" [("component", c), ("kind", k)]) := by
  obtain ⟨_, m2, _⟩ := main_exit env fl _ rec hs
  have hex : ∃ c1 v1 cm1 k1 kv1, (c1, v1) ∈ rec ∧ v1.asMap = some cm1 ∧ (k1, kv1) ∈ cm1 ∧
      kv1.asMap = none ∧
      (main env fl (World.init files)).1
        = Exit.fatal "unexpected kind member" [("component", c1), ("kind", k1)] := by
    rcases compsLoop_cases env fl.outputDir rec ((World.init files).started fl) hmk hwr hcomp
      with ⟨_, h2⟩ | ⟨c1, v1, cm1, k1, kv1, h1, h2, h3, h4, h5⟩
    · exact absurd hkv (fullyValid_kinds rec h2 c v cm k kv (by simp [hsplit]) hv
        (by simp [hksplit]))
    · exact ⟨c1, v1, cm1, k1, kv1, h1, h2, h3, h4, m2 _ h5⟩
  refine ⟨?_, hex, ?_⟩
  · obtain ⟨_, _, _, _, _, _, _, _, _, h6⟩ := hex
    rw [h6]; rfl
  · intro hpre hkpre
    apply m2
    rw [hsplit]
    exact compsLoop_first_bad_kind env fl.outputDir pre post c v cm kpre kpost k kv _ hmk hwr
      hv hksplit hkv hpre hkpre

theorem C5_kind_error_witness :
    (main (okEnv twoBadKindsRecord) demoFlags (World.init [])).1.code = 1 ∧
      (main (okEnv twoBadKindsRecord) demoFlags (World.init [])).1
        = Exit.fatal "unexpected kind member" [("component", "Api"), ("kind", "service")] :=
  ⟨(C5_kind_error (okEnv twoBadKindsRecord) demoFlags [] twoBadKindsRecord [] [] "Api"
      (.mapping [("service", .scalar "x"), ("deployment", .scalar "y")])
      [("service", .scalar "x"), ("deployment", .scalar "y")] [] [("deployment", .scalar "y")]
      "service" (.scalar "x") ⟨rfl, rfl, by decide, by decide, rfl, rfl⟩
      (fun c v h => by
        simp only [twoBadKindsRecord, List.mem_singleton, Prod.mk.injEq] at h
        rw [h.2]; simp [Value.asMap])
      rfl rfl rfl rfl (fun _ _ => rfl) (okEnv_writes _)).1,
   (C5_kind_error (okEnv twoBadKindsRecord) demoFlags [] twoBadKindsRecord [] [] "Api"
      (.mapping [("service", .scalar "x"), ("deployment", .scalar "y")])
      [("service", .scalar "x"), ("deployment", .scalar "y")] [] [("deployment", .scalar "y")]
      "service" (.scalar "x") ⟨rfl, rfl, by decide, by decide, rfl, rfl⟩
      (fun c v h => by
        simp only [twoBadKindsRecord, List.mem_singleton, Prod.mk.injEq] at h
        rw [h.2]; simp [Value.asMap])
      rfl rfl rfl rfl (fun _ _ => rfl) (okEnv_writes _)).2.2 rfl rfl⟩

/-- Claim C5 as stated fails: every component is a mapping, the value of kind
`deployment` of `Api` is not a mapping, no call fails, and the run names the
kind `service` visited before it, not `deployment`. -/
theorem C5_later_kind_not_named :
    (∀ c v, (c, v) ∈ twoBadKindsRecord → v.asMap ≠ none) ∧
    (("Api", Value.mapping [("service", .scalar "x"), ("deployment", .scalar "y")])
        ∈ twoBadKindsRecord ∧
      ("deployment", Value.scalar "y")
        ∈ [("service", Value.scalar "x"), ("deployment", Value.scalar "y")] ∧
      (Value.scalar "y").asMap = none) ∧
    (main (okEnv twoBadKindsRecord) demoFlags (World.init [])).1
      = Exit.fatal "unexpected kind member" [("component", "Api"), ("kind", "service")] ∧
    (main (okEnv twoBadKindsRecord) demoFlags (World.init [])).1
      ≠ Exit.fatal "unexpected kind member" [("component", "Api"), ("kind", "deployment")] := by
  have h : (main (okEnv twoBadKindsRecord) demoFlags (World.init [])).1
      = Exit.fatal "unexpected kind member" [("component", "Api"), ("kind", "service")] := rfl
  refine ⟨?_, ⟨by simp [twoBadKindsRecord], by simp, rfl⟩, h, ?_⟩
  · intro c v hm
    simp only [twoBadKindsRecord, List.mem_singleton, Prod.mk.injEq] at hm
    rw [hm.2]; simp [Value.asMap]
  · rw [h]
    intro hc
    simp only [Exit.fatal.injEq, List.cons.injEq, Prod.mk.injEq] at hc
    exact absurd hc.2.2.1.2 (by decide)

/-- Claim C6, amended: on a valid record in an empty output root, with the
directory creations succeeding, when the write for `t` is the first
`writeYaml` call that returns an error, the process exits 1 with `failed to
write yaml` for the path of `t`, the writes issued are those of the tuples
before `t` and that of `t` and no other, and the files on disk are those of
the tuples before `t`, together with the file of `t` itself when `os.Create`
succeeded for it. -/
theorem C6_first_failure (env : Env) (fl : Flags) (rec : Record) (pre post : List Leaf)
    (t : Leaf) (e : String)
    (hs : Started env fl (World.init []) rec) (hv : fullyValid rec = true)
    (hmk : ∀ n p, env.MkdirAll n p = none)
    (hsplit : leaves rec = pre ++ t :: post)
    (hpre : ∀ i u, pre[i]? = some u →
      (writeYaml env i (u.path env fl.outputDir) u.contents).1 = none)
    (hfail : (writeYaml env pre.length (t.path env fl.outputDir) t.contents).1 = some e) :
    (main env fl (World.init [])).1
        = Exit.fatal "failed to write yaml" [("file", t.path env fl.outputDir), ("error", e)] ∧
      (main env fl (World.init [])).1.code = 1 ∧
      writesOf (main env fl (World.init [])).2.trace
        = pre.map (fun u => (u.path env fl.outputDir, u.contents, none))
            ++ [(t.path env fl.outputDir, t.contents, some e)] ∧
      (∀ p, p ∈ (main env fl (World.init [])).2.files.map Prod.fst ↔
        p ∈ pre.map (fun u => u.path env fl.outputDir) ∨
          (p = t.path env fl.outputDir ∧
            (env.fileIO pre.length (t.path env fl.outputDir)).createErr = none)) :=
  main_first_failure env fl rec pre post t e hs hv hmk hsplit hpre hfail

theorem C6_first_failure_witness :
    (main (secondCreateFails twoRecord) demoFlags (World.init [])).1
        = Exit.fatal "failed to write yaml"
            [("file", "/out/api/backend.service.yaml"), ("error", "permission denied")] ∧
      (main (secondCreateFails twoRecord) demoFlags (World.init [])).1.code = 1 :=
  ⟨(C6_first_failure (secondCreateFails twoRecord) demoFlags twoRecord
      [⟨"Api", "service", "frontend", .scalar "8080"⟩] []
      ⟨"Api", "service", "backend", .scalar "9090"⟩ "permission denied"
      ⟨rfl, rfl, by decide, by decide, rfl, rfl⟩ rfl (fun _ _ => rfl) rfl
      (fun i u h => by
        cases i with
        | zero =>
          simp only [List.getElem?_cons_zero, Option.some.injEq] at h
          subst h
          rfl
        | succ i => simp at h)
      rfl).1,
   (C6_first_failure (secondCreateFails twoRecord) demoFlags twoRecord
      [⟨"Api", "service", "frontend", .scalar "8080"⟩] []
      ⟨"Api", "service", "backend", .scalar "9090"⟩ "permission denied"
      ⟨rfl, rfl, by decide, by decide, rfl, rfl⟩ rfl (fun _ _ => rfl) rfl
      (fun i u h => by
        cases i with
        | zero =>
          simp only [List.getElem?_cons_zero, Option.some.injEq] at h
          subst h
          rfl
        | succ i => simp at h)
      rfl).2.1⟩

/-- Claim C6 as stated fails: the only write fails on a full device after the
file was created, and the file of that tuple is on disk. -/
theorem C6_file_left_behind :
    leaves apiRecord = [] ++ ⟨"Api", "service", "frontend", .mapping [("port", .scalar "8080")]⟩ :: [] ∧
      (writeYaml (diskFullBig apiRecord) 0 "/out/api/frontend.service.yaml"
        (.mapping [("port", .scalar "8080")])).1 = some "no space left on device" ∧
      (main (diskFullBig apiRecord) demoFlags (World.init [])).1.code = 1 ∧
      "/out/api/frontend.service.yaml"
        ∈ (main (diskFullBig apiRecord) demoFlags (World.init [])).2.files.map Prod.fst := by
  have hlen : bigChunk.length = 5000 := List.length_replicate 5000 32
  have hw : writeYaml (diskFullBig apiRecord) 0 "/out/api/frontend.service.yaml"
      (.mapping [("port", .scalar "8080")])
      = (some "no space left on device", some (bigChunk.take 0)) :=
    writeYaml_overflow (diskFullBig apiRecord) 0 _ _ bigChunk 0 rfl rfl rfl
      (by rw [hlen]; decide) (by rw [hlen]; decide)
  have hpath : (⟨"Api", "service", "frontend", .mapping [("port", .scalar "8080")]⟩ : Leaf).path
      (diskFullBig apiRecord) demoFlags.outputDir = "/out/api/frontend.service.yaml" := by
    decide
  obtain ⟨_, k2, _, k4⟩ := main_first_failure (diskFullBig apiRecord) demoFlags apiRecord [] []
    ⟨"Api", "service", "frontend", .mapping [("port", .scalar "8080")]⟩
    "no space left on device" ⟨rfl, rfl, by decide, by decide, rfl, rfl⟩ rfl (fun _ _ => rfl) rfl
    (fun i u h => by simp at h) (by rw [hpath]; exact congrArg Prod.fst hw)
  refine ⟨rfl, by rw [hw], k2, ?_⟩
  rw [k4]
  exact Or.inr ⟨hpath.symm, rfl⟩

/-- Claim C7, amended: for components whose lowercased name is a plain path
element (not empty, not `.` or `..`, no separator), and names and kinds
without separator, kinds also without dot, two tuples resolve to the same path
under a root exactly when they agree in lowercased component, kind and name. -/
theorem C7_path_injective (env : Env) (R C1 K1 N1 C2 K2 N2 : String)
    (hc1 : Plain (env.ToLower C1)) (hc2 : Plain (env.ToLower C2))
    (hn1 : '/' ∉ N1.data) (hn2 : '/' ∉ N2.data)
    (hk1 : '/' ∉ K1.data) (hk2 : '/' ∉ K2.data)
    (hd1 : '.' ∉ K1.data) (hd2 : '.' ∉ K2.data) :
    Join [R, env.ToLower C1, N1 ++ "." ++ K1 ++ ".yaml"]
        = Join [R, env.ToLower C2, N2 ++ "." ++ K2 ++ ".yaml"] ↔
      (env.ToLower C1 = env.ToLower C2 ∧ K1 = K2 ∧ N1 = N2) :=
  filename_eq_iff env R C1 K1 N1 C2 K2 N2 hc1 hc2 hn1 hn2 hk1 hk2 hd1 hd2

theorem C7_path_injective_witness :
    Join ["/out", asciiLower "Api", "frontend" ++ "." ++ "service" ++ ".yaml"]
        = Join ["/out", asciiLower "API", "frontend" ++ "." ++ "service" ++ ".yaml"] ↔
      (asciiLower "Api" = asciiLower "API" ∧ "service" = "service" ∧ "frontend" = "frontend") :=
  C7_path_injective (okEnv []) "/out" "Api" "service" "frontend" "API" "service" "frontend"
    (by refine ⟨?_, ?_, ?_, ?_⟩ <;> decide) (by refine ⟨?_, ?_, ?_, ?_⟩ <;> decide)
    (by decide) (by decide) (by decide) (by decide) (by decide) (by decide)

/-- Claim C7 as stated fails: two tuples of one component that differ in kind
and name resolve to the same path, because the dot that separates name and
kind may also occur inside them. -/
theorem C7_dot_collision :
    (asciiLower "Api", "v1.Service", "web") ≠ (asciiLower "Api", "Service", "web.v1") ∧
      Join ["/out", asciiLower "Api", "web" ++ "." ++ "v1.Service" ++ ".yaml"]
        = Join ["/out", asciiLower "Api", "web.v1" ++ "." ++ "Service" ++ ".yaml"] := by
  decide

/-- Claim C8, amended: with `--help` or `--version` the process exits 0 after
printing, whatever the other flags are; without them, a missing `--record` or
`--output` makes it print the usage and exit 1, and nothing else has been done
(no directory created, no evaluator invoked). -/
theorem C8_flag_checks (env : Env) (fl : Flags) (w : World) :
    ((fl.printHelp = true ∨ fl.printVersion = true) →
      (main env fl w).1.code = 0 ∧
        ((main env fl w).2 = w.record .usage ∨ (main env fl w).2 = w.record .printVersion)) ∧
    (fl.printHelp = false → fl.printVersion = false →
      (fl.recordFile = "" ∨ fl.outputDir = "") →
      (main env fl w).1 = Exit.usage 1 ∧ (main env fl w).1.code = 1 ∧
        (main env fl w).2 = w.record .usage) := by
  constructor
  · intro h
    by_cases hh : fl.printHelp = true
    · simp [main, hh, Exit.code]
    · rcases h with h | h
      · exact absurd h hh
      · simp [main, hh, h, Exit.code]
  · intro h1 h2 h3
    by_cases hr : fl.recordFile = ""
    · simp [main, h1, h2, hr, Exit.code]
    · rcases h3 with h3 | h3
      · exact absurd h3 hr
      · simp [main, h1, h2, hr, h3, Exit.code]

theorem C8_flag_checks_witness :
    (main (okEnv apiRecord) (Flags.mk "" "/out" false false) (World.init [])).1 = Exit.usage 1 ∧
      (main (okEnv apiRecord) (Flags.mk "" "/out" false false) (World.init [])).1.code = 1 ∧
      (main (okEnv apiRecord) (Flags.mk "" "/out" false false) (World.init [])).2
        = (World.init []).record .usage :=
  (C8_flag_checks (okEnv apiRecord) (Flags.mk "" "/out" false false) (World.init [])).2
    rfl rfl (Or.inl rfl)

/-- Claim C8 as stated fails: with `--help` and no `--record` the exit code is 0. -/
theorem C8_help_without_record :
    (Flags.mk "" "" true false).recordFile = "" ∧
      (main (okEnv apiRecord) (Flags.mk "" "" true false) (World.init [])).1.code = 0 := by
  decide

/-- Claim C9 fails on the code: on a full device the eleven bytes of the
document stay in the buffer during `Encode`, the deferred `Flush` fails and its
error is dropped, so `writeYaml` returns no error, the file is left empty and
the run ends normally. -/
theorem C9_flush_error_dropped :
    ((diskFull apiRecord).marshal (.mapping [("port", .scalar "8080")])).1
        = [textBytes "port: 8080" ++ [10]] ∧
      ((Encode (diskFull apiRecord) (NewWriter { data := [], capacity := some 0 })
        (.mapping [("port", .scalar "8080")])).1.Flush).2 = some "no space left on device" ∧
      writeYaml (diskFull apiRecord) 0 "/out/api/frontend.service.yaml"
        (.mapping [("port", .scalar "8080")]) = (none, some []) ∧
      (main (diskFull apiRecord) demoFlags (World.init [])).1 = Exit.done ∧
      (main (diskFull apiRecord) demoFlags (World.init [])).2.files
        = [("/out/api/frontend.service.yaml", [])] :=
  ⟨rfl, rfl, rfl, rfl, rfl⟩

/-- Claim C10: for a name and a kind without separator the parent directory of
the resolved file path is `filepath.Join(R, lowercase(C))`; every write of the
run is the write of a tuple of the record and comes after a successful
`os.MkdirAll` of that directory; the directories the run asks for are the
output root and then one per component key, in iteration order, up to the
component at which it stopped, and for every component key, with or without
resources, when the run ends normally. -/
theorem C10_directory_first (env : Env) (fl : Flags) (files : List (String × Bytes))
    (rec : Record) (hs : Started env fl (World.init files) rec) :
    (∀ comp kind name : String, '/' ∉ name.data → '/' ∉ kind.data →
      Dir (Join [fl.outputDir, env.ToLower comp, name ++ "." ++ kind ++ ".yaml"])
        = Join [fl.outputDir, env.ToLower comp]) ∧
    (∀ pre post fn c e,
      (main env fl (World.init files)).2.trace = pre ++ Event.writeYaml fn c e :: post →
      ∃ t, t ∈ leaves rec ∧
        fn = Join [fl.outputDir, env.ToLower t.comp, t.name ++ "." ++ t.kind ++ ".yaml"] ∧
        c = t.contents ∧
        Event.mkdirAll (Join [fl.outputDir, env.ToLower t.comp]) none ∈ pre) ∧
    (∃ k, k ≤ rec.length ∧
      (mkdirsOf (main env fl (World.init files)).2.trace).map Prod.fst
        = fl.outputDir :: (rec.take k).map (fun cv => Join [fl.outputDir, env.ToLower cv.1])) ∧
    ((main env fl (World.init files)).1 = Exit.done →
      mkdirsOf (main env fl (World.init files)).2.trace
        = (fl.outputDir, none)
            :: rec.map (fun cv => (Join [fl.outputDir, env.ToLower cv.1], none))) := by
  refine ⟨?_, ?_, ?_, ?_⟩
  · intro comp kind name hn hk
    exact Dir_Join fl.outputDir (env.ToLower comp) name kind hs.2.2.2.1 hn hk
  · exact main_dirs env fl files rec hs
  · obtain ⟨m1, _, _⟩ := main_exit env fl _ rec hs
    obtain ⟨k, hk1, hk2⟩ := compsLoop_mkdirs_any env fl.outputDir rec
      ((World.init files).started fl)
    refine ⟨k, hk1, ?_⟩
    rw [m1, hk2]
    simp [World.started, World.record, World.init, mkdirsOf]
  · intro hdone
    obtain ⟨m1, _, _⟩ := main_exit env fl _ rec hs
    rw [m1, (compsLoop_none env fl.outputDir rec _ (compsLoop_done env fl files rec hs hdone)).2]
    simp [World.started, World.record, World.init, mkdirsOf]

theorem C10_directory_first_witness :
    Dir (Join ["/out", asciiLower "Api", "frontend" ++ "." ++ "service" ++ ".yaml"])
        = Join ["/out", asciiLower "Api"] ∧
      mkdirsOf (main (okEnv apiRecord) demoFlags (World.init [])).2.trace
        = [("/out", none), ("/out/api", none)] :=
  ⟨(C10_directory_first (okEnv apiRecord) demoFlags [] apiRecord
      ⟨rfl, rfl, by decide, by decide, rfl, rfl⟩).1 "Api" "service" "frontend"
      (by decide) (by decide),
   (C10_directory_first (okEnv apiRecord) demoFlags [] apiRecord
      ⟨rfl, rfl, by decide, by decide, rfl, rfl⟩).2.2.2 rfl⟩

end DhallToDs
